import Mathlib

/-!
# The `ab` load generator (`ab/cmd/ab/main.go`)

A shallow embedding of the dispatch-and-aggregation engine of the command-line
HTTP load generator:

* the aggregation loop over the closed `results` channel (main.go:102-115) as
  a left fold over the sequence of received `result` values;
* the summary output (main.go:117-130) as the sequence of `Printf`/`Println`
  calls together with their rendering;
* the goroutines of `main` (main.go:41-99) as an interleaving transition
  system: one atomic step per channel operation, atomic increment,
  `WaitGroup` operation or return of `client.Get`.

Modelling conventions.

* `time.Duration` is `int64`; `totalDuration += r.duration` wraps, and is
  embedded with an explicit two's-complement reduction (`wrapInt64`).
* The counters `successful`, `failed`, `statusCodes[..]`, `completed` and the
  channel lengths are natural numbers: each is bounded by the number of
  elements held by a channel whose capacity is itself an `int`, so none of
  them can wrap.
* The three `%.3f` / `%.2f` renderings are fields of `FloatFormat`, functions
  of the integer operands of the Go expression they render; the statements on
  the layout of the report hold for every such rendering. `goFloatFormat` is
  the rendering the program computes, on an embedding of `float64` arithmetic
  (round to nearest even on 53-bit significands) over exact integers.
* A Go `map[int]int` is an association list with distinct keys; the order in
  which `range` visits it is chosen by the runtime and is an input of the
  summary output.
* In the transition system `client.Get` is one step that returns either an
  error or a response (the client has a 30 second timeout); draining and
  closing the body change no shared variable and are part of the step that
  follows. The progress reporter only reads `completed`; it is not a
  component of `State` and is composed with the system in `RunState`. A
  blocked statement is a step that is not enabled.
-/

namespace Ab

/-! ## Data model -/

/-- The record `type result struct` (main.go:19-23): `duration` in
nanoseconds, `status` the HTTP status, `error` set on a transport error. -/
structure result where
  duration : Int
  status : Int
  error : Bool
  deriving DecidableEq

/-- Two's-complement reduction of an integer to the `int64` range. -/
def wrapInt64 (x : Int) : Int :=
  (x + 9223372036854775808) % 18446744073709551616 - 9223372036854775808

/-- A Go `map[int]int`: association list, one entry per key. -/
abbrev IntMap := List (Int × Nat)

/-- The read `m[k]`: the stored value, or the zero value when `k` is absent. -/
def mapGet : IntMap → Int → Nat
  | [], _ => 0
  | (k', v) :: rest, k => if k' = k then v else mapGet rest k

/-- The assignment `m[k] = v`: overwrite the entry of `k`, or insert one. -/
def mapSet : IntMap → Int → Nat → IntMap
  | [], k, v => [(k, v)]
  | (k', v') :: rest, k, v =>
    if k' = k then (k, v) :: rest else (k', v') :: mapSet rest k v

/-- The statement `m[k]++` (main.go:114). -/
def mapIncr (m : IntMap) (k : Int) : IntMap :=
  mapSet m k (mapGet m k + 1)

/-- The keys of a map. -/
def mapKeys (m : IntMap) : List Int := m.map Prod.fst

/-- The values of a map. -/
def mapValues (m : IntMap) : List Nat := m.map Prod.snd

/-- The four accumulators of the aggregation loop (main.go:102-105). -/
structure Summary where
  totalDuration : Int
  successful : Nat
  failed : Nat
  statusCodes : IntMap
  deriving DecidableEq

/-- The accumulators before the loop: zero values and `make(map[int]int)`. -/
def Summary.zero : Summary :=
  { totalDuration := 0, successful := 0, failed := 0, statusCodes := [] }

/-- One iteration of `for r := range results` (main.go:107-115). -/
def aggStep (acc : Summary) (r : result) : Summary :=
  if r.error then
    { acc with failed := acc.failed + 1 }
  else
    { acc with
      successful := acc.successful + 1
      totalDuration := wrapInt64 (acc.totalDuration + r.duration)
      statusCodes := mapIncr acc.statusCodes r.status }

/-- The aggregation loop over the closed channel (main.go:102-115). -/
def aggregate (rs : List result) : Summary :=
  rs.foldl aggStep Summary.zero

/-- The non-error results of a sequence. -/
def okResults (rs : List result) : List result :=
  rs.filter (fun r => !r.error)

/-- The error results of a sequence. -/
def errResults (rs : List result) : List result :=
  rs.filter (fun r => r.error)

/-- The exact (unbounded) sum of the durations of the non-error results. -/
def okDurationSum (rs : List result) : Int :=
  ((okResults rs).map (fun r => r.duration)).sum

/-- The number of non-error results with status `s`. -/
def okStatusCount (rs : List result) (s : Int) : Nat :=
  (okResults rs).countP (fun r => decide (r.status = s))

/-- The stubbed outcome sequence of the scenario N = 10: success with status
500 alternating with a transport error. -/
def alternating500 : List result :=
  (List.range 10).map fun i =>
    if i % 2 = 0 then { duration := 0, status := 500, error := false }
    else { duration := 0, status := 0, error := true }

/-! ## Summary output (main.go:117-130) -/

/-- Renderings of the three floating-point values of the report, each a
function of the integer operands of the Go expression it formats. -/
structure FloatFormat where
  /-- The text of `%.3f` applied to `d.Seconds()`. -/
  seconds3 : Int → String
  /-- The text of `%.3f` applied to
  `totalDuration.Seconds()/float64(successful)`. -/
  average3 : Int → Nat → String
  /-- The text of `%.2f` applied to `float64(*requests)/totalTime.Seconds()`. -/
  rate2 : Nat → Int → String

/-- One call of `fmt.Printf` / `fmt.Println` of the report, with its
arguments. -/
inductive Line where
  | header
  | totalTime (totalTime : Int)
  | requests (requests successful failed : Nat)
  | average (totalDuration : Int) (successful : Nat)
  | rate (requests : Nat) (totalTime : Int)
  | distribution
  | code (code : Int) (count : Nat)
  deriving DecidableEq

/-- The text written by one call. -/
def render (F : FloatFormat) : Line → String
  | .header => "\nBenchmark results:\n"
  | .totalTime t => "Total time: " ++ F.seconds3 t ++ "s\n"
  | .requests n s f =>
    "Requests: " ++ toString n ++ " total, " ++ toString s ++ " successful, "
      ++ toString f ++ " failed\n"
  | .average d s => "Average response time: " ++ F.average3 d s ++ "s\n"
  | .rate n t => "Requests per second: " ++ F.rate2 n t ++ "\n"
  | .distribution => "Status code distribution:\n"
  | .code c k => "  " ++ toString c ++ ": " ++ toString k ++ " responses\n"

/-- The calls preceding the loop over `statusCodes` (main.go:117-127). -/
def summaryHead (requests : Nat) (totalTime : Int) (sum : Summary) : List Line :=
  [Line.header, Line.totalTime totalTime,
    Line.requests requests sum.successful sum.failed]
  ++ (if 0 < sum.successful then
        [Line.average sum.totalDuration sum.successful] else [])
  ++ [Line.rate requests totalTime, Line.distribution]

/-- The calls of the loop `for code, count := range statusCodes`
(main.go:128-130), which visits the entries in the sequence `order`. -/
def codeLines (order : List (Int × Nat)) : List Line :=
  order.map (fun e => Line.code e.1 e.2)

/-- The calls of main.go:117-130 in program order. -/
def summaryLines (requests : Nat) (totalTime : Int) (sum : Summary)
    (order : List (Int × Nat)) : List Line :=
  summaryHead requests totalTime sum ++ codeLines order

/-- Concatenation of the texts of a sequence of calls. -/
def renderAll (F : FloatFormat) : List Line → String
  | [] => ""
  | l :: ls => render F l ++ renderAll F ls

/-- The bytes written to standard output by main.go:117-130. -/
def summaryOutput (F : FloatFormat) (requests : Nat) (totalTime : Int)
    (sum : Summary) (order : List (Int × Nat)) : String :=
  renderAll F (summaryLines requests totalTime sum order)

/-- The orders in which `range` may visit a map: every arrangement of its
entries. -/
def RangeOrder (m : IntMap) (order : List (Int × Nat)) : Prop :=
  order.Perm m

instance (m : IntMap) (order : List (Int × Nat)) : Decidable (RangeOrder m order) := by
  unfold RangeOrder; infer_instance

/-! ## Floating-point rendering of the report -/

/-- A `float64` value: a finite value `(-1)^neg * m * 2^e`, an infinity or
NaN. Exponent limits are not represented: the values of the report are
quotients of integers below 2^63 and stay in the normal range. The two zeros
are not distinguished: the report never divides by a negative value, so no
negative zero arises. -/
inductive F64 where
  | finite (neg : Bool) (m : Nat) (e : Int)
  | inf (neg : Bool)
  | nan
  deriving DecidableEq

/-- The number of halvings that take `n` below 2, at most `fuel` of them. -/
def halvings : Nat → Nat → Nat
  | 0, _ => 0
  | fuel + 1, n => if n < 2 then 0 else halvings fuel (n / 2) + 1

/-- The integer part of the binary logarithm of a positive number. -/
def floorLog2 (n : Nat) : Nat := halvings n n

/-- The pair `(m, e)` with `m * 2^e` the value nearest to `p / q * 2^k`
among those with a significand of 53 bits, ties going to the even
significand (IEEE 754 round to nearest even); `q` is positive. -/
def roundMag (p q : Nat) (k : Int) : Nat × Int :=
  if p = 0 then (0, 0)
  else
    let s0 : Int := 52 - (floorLog2 p : Int) + (floorLog2 q : Int)
    let t := (p * 2 ^ s0.toNat) / (q * 2 ^ (-s0).toNat)
    let s : Int := if t < 2 ^ 52 then s0 + 1 else s0
    let num := p * 2 ^ s.toNat
    let den := q * 2 ^ (-s).toNat
    let m := num / den
    let r := num % den
    let m' := if den < 2 * r ∨ (2 * r = den ∧ m % 2 = 1) then m + 1 else m
    (m', k - s)

/-- The conversion `float64(i)` of an integer. -/
def F64.ofInt (i : Int) : F64 :=
  let r := roundMag i.natAbs 1 0
  F64.finite (decide (i < 0)) r.1 r.2

/-- The quotient `x / y` of two `float64` values. -/
def F64.div : F64 → F64 → F64
  | .finite na ma ea, .finite nb mb eb =>
    if mb = 0 then
      if ma = 0 then .nan else .inf (xor na nb)
    else
      let r := roundMag ma mb (ea - eb)
      .finite (r.1 ≠ 0 && xor na nb) r.1 r.2
  | .finite na _ _, .inf nb => .finite (xor na nb) 0 0
  | .inf na, .finite nb _ _ => .inf (xor na nb)
  | _, _ => .nan

/-- The sum `x + y` of two `float64` values. -/
def F64.add : F64 → F64 → F64
  | .finite na ma ea, .finite nb mb eb =>
    let e := min ea eb
    let a : Int := (if na then -1 else 1) * (ma * 2 ^ (ea - e).toNat : Nat)
    let b : Int := (if nb then -1 else 1) * (mb * 2 ^ (eb - e).toNat : Nat)
    let r := roundMag (a + b).natAbs 1 e
    .finite (decide (a + b < 0)) r.1 r.2
  | .inf na, .inf nb => if na = nb then .inf na else .nan
  | .inf na, .finite _ _ _ => .inf na
  | .finite _ _ _, .inf nb => .inf nb
  | _, _ => .nan

/-- The method `func (d Duration) Seconds() float64` of package `time`:
`float64(d / Second) + float64(d % Second) / 1e9`, with the truncated integer
division of Go. -/
def durationSeconds (d : Int) : F64 :=
  F64.add (F64.ofInt (d.tdiv 1000000000))
    (F64.div (F64.ofInt (d.tmod 1000000000)) (F64.ofInt 1000000000))

/-- The decimal digits of `n`, padded with zeros on the left to `width`. -/
def padDigits (width n : Nat) : String :=
  String.mk (List.replicate (width - (toString n).length) '0') ++ toString n

/-- The text of the verb `%.<prec>f` applied to a `float64`: the value
rounded to `prec` decimals, a tie going to the even digit. -/
def formatFixed (prec : Nat) : F64 → String
  | .nan => "NaN"
  | .inf neg => if neg then "-Inf" else "+Inf"
  | .finite neg m e =>
    let num := m * 10 ^ prec * 2 ^ e.toNat
    let den := 2 ^ (-e).toNat
    let q := num / den
    let r := num % den
    let scaled := if den < 2 * r ∨ (2 * r = den ∧ q % 2 = 1) then q + 1 else q
    (if neg then "-" else "") ++ toString (scaled / 10 ^ prec) ++ "."
      ++ padDigits prec (scaled % 10 ^ prec)

/-- The value `totalDuration.Seconds()/float64(successful)` printed by
main.go:122-123. -/
def averageSeconds (totalDuration : Int) (successful : Nat) : F64 :=
  F64.div (durationSeconds totalDuration) (F64.ofInt successful)

/-- The renderings computed by main.go:118, 122-123 and 125-126. -/
def goFloatFormat : FloatFormat :=
  { seconds3 := fun d => formatFixed 3 (durationSeconds d)
    average3 := fun d n => formatFixed 3 (averageSeconds d n)
    rate2 := fun n t => formatFixed 2 (F64.div (F64.ofInt n) (durationSeconds t)) }

/-! ## Channel construction -/

/-- The builtin `make(chan T, size)` for a zero-size element type: the
capacity of the new channel, `none` standing for the run-time panic on a
negative size. -/
def makeChan (size : Int) : Option Nat :=
  if size < 0 then none else some size.toNat

/-- The capacity of `sem := make(chan struct{}, *concurrency)` (main.go:43)
for the parsed value `concurrency` of the flag `-c`. -/
def semCapacity (concurrency : Int) : Option Nat :=
  makeChan concurrency

/-- The default of the flag `-c` (main.go:15). -/
def defaultConcurrency : Int := 1

/-! ## The goroutines of `main` (main.go:41-99) -/

/-- The parsed flags `-n` and `-c`. A negative value of either makes the
corresponding `make` panic before any goroutine is started, so the
transition system is defined for natural numbers. -/
structure Config where
  requests : Nat
  concurrency : Nat
  deriving DecidableEq

/-- Control point of one task goroutine (main.go:74-94): the statement it
executes next. -/
inductive TaskPc where
  /-- Line 76, `sem <- struct{}{}`. -/
  | acquire
  /-- Lines 79-80, `client.Get(url)`; the permit is held. -/
  | get
  /-- Line 82, `atomic.AddInt64(&completed, 1)` on the error path. -/
  | countErr
  /-- Line 83, `results <- result{error: true}`. -/
  | sendErr
  /-- Lines 86-89, body drained, `atomic.AddInt64(&completed, 1)`. -/
  | countOk (status : Int)
  /-- Lines 90-93, `results <- result{duration: ..., status: ...}`. -/
  | sendOk (status : Int)
  /-- Line 77, the deferred `<-sem` (after the deferred `Body.Close`). -/
  | release
  /-- Line 75, the deferred `wg.Done()`. -/
  | wgDone
  /-- The goroutine has returned. -/
  | exited
  deriving DecidableEq

/-- One scheduling decision. `task i resp elapsed` lets task `i` execute its
next statement; `resp` is what `client.Get` returns if that statement is the
call (`none` for a transport error, `some status` otherwise) and `elapsed` is
what `time.Since(reqStart)` reads if that statement is the send of line 90. -/
inductive Action where
  /-- One iteration of the loop of main.go:72-95: `wg.Add(1)` and `go`. -/
  | spawn
  /-- The return of `wg.Wait()` (main.go:97), followed by the two `close`. -/
  | wait
  | task (i : Nat) (resp : Option Int) (elapsed : Int)
  deriving DecidableEq

/-- Shared state of the run. -/
structure State where
  /-- The goroutines started so far, in spawn order; its length is the loop
  variable `i`. -/
  tasks : List TaskPc
  /-- The number of elements buffered in `sem`. -/
  sem : Nat
  /-- The counter of `wg`. -/
  wg : Nat
  /-- The atomic counter `completed`. -/
  completed : Nat
  /-- The elements buffered in `results`, oldest first. -/
  results : List result
  /-- Whether `wg.Wait()` has returned. -/
  waited : Bool
  deriving DecidableEq

/-- The state at main.go:72, before the first iteration. -/
def State.init : State :=
  { tasks := [], sem := 0, wg := 0, completed := 0, results := [], waited := false }

/-- The next statement of task `i`, at control point `pc`: `none` when the
statement blocks (a send on a full channel, a receive on an empty one) or the
goroutine has returned. -/
def taskStep (cfg : Config) (s : State) (i : Nat) (resp : Option Int)
    (elapsed : Int) : TaskPc → Option State
  | .acquire =>
    if s.sem < cfg.concurrency then
      some { s with sem := s.sem + 1, tasks := s.tasks.set i .get }
    else none
  | .get =>
    match resp with
    | none => some { s with tasks := s.tasks.set i .countErr }
    | some status => some { s with tasks := s.tasks.set i (.countOk status) }
  | .countErr =>
    some { s with completed := s.completed + 1, tasks := s.tasks.set i .sendErr }
  | .sendErr =>
    if s.results.length < cfg.requests then
      some { s with
        results := s.results ++ [{ duration := 0, status := 0, error := true }]
        tasks := s.tasks.set i .release }
    else none
  | .countOk status =>
    some { s with completed := s.completed + 1, tasks := s.tasks.set i (.sendOk status) }
  | .sendOk status =>
    if s.results.length < cfg.requests then
      some { s with
        results := s.results ++ [{ duration := elapsed, status := status, error := false }]
        tasks := s.tasks.set i .release }
    else none
  | .release =>
    if 0 < s.sem then
      some { s with sem := s.sem - 1, tasks := s.tasks.set i .wgDone }
    else none
  | .wgDone =>
    if 0 < s.wg then
      some { s with wg := s.wg - 1, tasks := s.tasks.set i .exited }
    else none
  | .exited => none

/-- The effect of an action, `none` when it cannot proceed: the loop has
ended, `wg.Wait()` blocks on a non-zero counter, the task does not exist or
its statement blocks. -/
def step? (cfg : Config) (s : State) : Action → Option State
  | .spawn =>
    if s.tasks.length < cfg.requests then
      some { s with tasks := s.tasks ++ [TaskPc.acquire], wg := s.wg + 1 }
    else none
  | .wait =>
    if s.waited = false ∧ s.tasks.length = cfg.requests ∧ s.wg = 0 then
      some { s with waited := true }
    else none
  | .task i resp elapsed =>
    match s.tasks[i]? with
    | none => none
    | some pc => taskStep cfg s i resp elapsed pc

/-- The scheduler's choice applied to a state; a choice that cannot proceed
leaves the state unchanged. -/
def step (cfg : Config) (s : State) (a : Action) : State :=
  (step? cfg s a).getD s

/-- The state after a schedule, from the initial state. -/
def exec (cfg : Config) (acts : List Action) : State :=
  acts.foldl (step cfg) State.init

/-- Whether a task at this control point holds a permit: it has sent on
`sem` and not yet received from it. -/
def holdsPermit : TaskPc → Bool
  | .get | .countErr | .sendErr | .countOk _ | .sendOk _ | .release => true
  | _ => false

/-- Whether a task at this control point is inside `client.Get`. -/
def inGet : TaskPc → Bool
  | .get => true
  | _ => false

/-- Whether the outcome of the task's request is determined: `client.Get`
has returned. -/
def outcomeKnown : TaskPc → Bool
  | .acquire | .get => false
  | _ => true

/-- Whether the task has executed its `atomic.AddInt64(&completed, 1)`. -/
def hasCounted : TaskPc → Bool
  | .sendErr | .sendOk _ | .release | .wgDone | .exited => true
  | _ => false

/-- Whether the task has executed its send on `results`. -/
def hasSent : TaskPc → Bool
  | .release | .wgDone | .exited => true
  | _ => false

/-- Whether the task has not yet executed `wg.Done()`. -/
def notDone : TaskPc → Bool
  | .exited => false
  | _ => true

/-- The number of statements the task still executes before it returns. -/
def stepsLeft : TaskPc → Nat
  | .acquire => 6
  | .get => 5
  | .countErr => 4
  | .countOk _ => 4
  | .sendErr => 3
  | .sendOk _ => 3
  | .release => 2
  | .wgDone => 1
  | .exited => 0

/-- The number of tasks holding a permit. -/
def permitsHeld (s : State) : Nat := s.tasks.countP holdsPermit

/-- The number of in-flight `client.Get` invocations. -/
def inFlight (s : State) : Nat := s.tasks.countP inGet

/-- The number of statements still to execute in the whole run: those of
the spawned tasks, seven for each task not yet spawned (the spawn and its
six statements) and the return of `wg.Wait()`. -/
def workLeft (cfg : Config) (s : State) : Nat :=
  (s.tasks.map stepsLeft).sum + 7 * (cfg.requests - s.tasks.length)
    + (if s.waited then 0 else 1)

/-- A complete schedule for one request and one permit, ending in a
transport error. -/
def scheduleOneError : List Action :=
  [.spawn, .task 0 none 0, .task 0 none 0, .task 0 none 0, .task 0 none 0,
   .task 0 none 0, .task 0 none 0, .wait]

/-- A complete schedule for two requests and one permit: the second task is
admitted once the first has released; the first succeeds with status 200
after 5ms, the second fails. -/
def scheduleTwo : List Action :=
  [.spawn, .spawn, .task 0 (some 200) 0, .task 1 none 0, .task 0 (some 200) 0,
   .task 0 none 0, .task 0 none 5000000, .task 0 none 0, .task 1 none 0,
   .task 0 none 0, .task 1 none 0, .task 1 none 0, .task 1 none 0,
   .task 1 none 0, .task 1 none 0, .wait]


/-- The relation between the shared variables and the control points of the
tasks, preserved by every step. -/
structure Inv (cfg : Config) (s : State) : Prop where
  spawned_le : s.tasks.length ≤ cfg.requests
  sem_eq : s.sem = s.tasks.countP holdsPermit
  sem_le : s.sem ≤ cfg.concurrency
  wg_eq : s.wg = s.tasks.countP notDone
  completed_eq : s.completed = s.tasks.countP hasCounted
  results_eq : s.results.length = s.tasks.countP hasSent
  waited_imp : s.waited = true → s.tasks.length = cfg.requests ∧ s.wg = 0

/-! ## The progress reporter (main.go:52-70) -/

/-- One call of `fmt.Printf` in the progress reporter, with the value of
`current` it prints: the periodic one of main.go:60 or the final one of
main.go:65. -/
inductive ProgressLine where
  | periodic (current : Nat)
  | final (current : Nat)
  deriving DecidableEq

/-- The text written by the call; both calls use the format
`"Completed %d requests\n"`. -/
def ProgressLine.text : ProgressLine → String
  | .periodic current => "Completed " ++ toString current ++ " requests\n"
  | .final current => "Completed " ++ toString current ++ " requests\n"

/-- The reporter goroutine: the calls it has made so far and whether it has
executed its `return`. -/
structure Reporter where
  printed : List ProgressLine
  returned : Bool
  deriving DecidableEq

/-- The reporter when it is started. -/
def Reporter.init : Reporter := { printed := [], returned := false }

/-- The case `<-ticker.C` (main.go:58-60); `current` is the value loaded
from `completed`. -/
def Reporter.tick (r : Reporter) (current : Nat) : Reporter :=
  { r with printed := r.printed ++ [ProgressLine.periodic current] }

/-- The calls made by the case `<-progressDone` for the loaded value
`current` (main.go:63-66). -/
def finalLines (current : Nat) : List ProgressLine :=
  if 0 < current ∧ current % 10000 ≠ 0 then [ProgressLine.final current] else []

/-- The case `<-progressDone` (main.go:61-67); `current` is the value loaded
from `completed`. -/
def Reporter.stop (r : Reporter) (current : Nat) : Reporter :=
  { printed := r.printed ++ finalLines current, returned := true }

/-- A scheduling decision of the run with its reporter: a step of `main` or
of a task, or one of the two cases of the reporter's `select`. -/
inductive RunAction where
  | run (a : Action)
  | tick
  | stop
  deriving DecidableEq

/-- The goroutines of `main` together with the reporter. -/
structure RunState where
  sys : State
  reporter : Reporter
  deriving DecidableEq

/-- The state at main.go:72 with the reporter started. -/
def RunState.init : RunState := { sys := State.init, reporter := Reporter.init }

/-- The effect of a scheduling decision, `none` when it cannot proceed. The
case `<-progressDone` is ready once `main` has closed the channel, right
after `wg.Wait()` has returned (main.go:97-98); a tick can be taken as long
as the reporter has not returned. -/
def runStep? (cfg : Config) (s : RunState) : RunAction → Option RunState
  | .run a => (step? cfg s.sys a).map fun sys => { s with sys := sys }
  | .tick =>
    if s.reporter.returned = false then
      some { s with reporter := s.reporter.tick s.sys.completed }
    else none
  | .stop =>
    if s.reporter.returned = false ∧ s.sys.waited = true then
      some { s with reporter := s.reporter.stop s.sys.completed }
    else none

/-- A scheduling decision applied to a state; one that cannot proceed leaves
the state unchanged. -/
def runStep (cfg : Config) (s : RunState) (a : RunAction) : RunState :=
  (runStep? cfg s a).getD s

/-- The state after a schedule, from the initial state. -/
def runExec (cfg : Config) (acts : List RunAction) : RunState :=
  acts.foldl (runStep cfg) RunState.init

/-- Whether a call is the final one of main.go:65. -/
def ProgressLine.isFinal : ProgressLine → Bool
  | .final _ => true
  | .periodic _ => false

/-- A run of one request in which the ticker fires after the task has
incremented `completed` and before `main` closes `progressDone`. -/
def scheduleTickThenStop : List RunAction :=
  [.run .spawn, .run (.task 0 (some 200) 0), .run (.task 0 (some 200) 0),
   .run (.task 0 none 0), .tick, .run (.task 0 none 1000000),
   .run (.task 0 none 0), .run (.task 0 none 0), .run .wait, .stop, .tick]

end Ab

/-!
# The post model of the web backend (`redditclone/internal/post/post.go`)

`Post.Vote` and `Post.CalculateUpvotePercentage`, with the fields of `Post`
they read or write. `Votes` is a slice of pointers in the source; it is
embedded as a list of values, which is exact for a slice without nil entries
whose entries are distinct pointers. `Score` is a Go `int`, embedded at a
width of 64 bits with wrapping addition and subtraction. The two vote counters
of `CalculateUpvotePercentage` are bounded by the length of the slice and are
natural numbers; a run-time panic is the result `none`.
-/

namespace RedditClone

/-- The record `type Vote struct` (post.go:23-26). -/
structure Vote where
  User : String
  Vote : Int
  deriving DecidableEq

/-- The fields `Score`, `Votes` and `UpvotePercentage` of `type Post struct`
(post.go:28-42). -/
structure Post where
  Score : Int
  Votes : List Vote
  UpvotePercentage : Int
  deriving DecidableEq

/-- Two's-complement reduction of an integer to the range of a 64-bit `int`. -/
def wrapInt (x : Int) : Int :=
  (x + 9223372036854775808) % 18446744073709551616 - 9223372036854775808

/-- The search loop of post.go:125-131: the index of the first entry of
`userID`, `none` standing for `-1`. -/
def existingVoteIndex : List Vote → String → Option Nat
  | [], _ => none
  | v :: vs, userID =>
    if v.User = userID then some 0
    else (existingVoteIndex vs userID).map (fun i => i + 1)

/-- The method `func (p *Post) Vote(userID string, vote int)`
(post.go:124-146). -/
def Post.Vote (p : Post) (userID : String) (vote : Int) : Post :=
  match existingVoteIndex p.Votes userID with
  | some i =>
    match p.Votes[i]? with
    | none => p
    | some existingVote =>
      let score := wrapInt (p.Score - existingVote.Vote)
      if vote = 0 then
        { p with Score := score, Votes := p.Votes.take i ++ p.Votes.drop (i + 1) }
      else
        { p with
          Score := wrapInt (score + vote)
          Votes := p.Votes.set i { existingVote with Vote := vote } }
  | none =>
    if vote ≠ 0 then
      { p with
        Score := wrapInt (p.Score + vote)
        Votes := p.Votes ++ [{ User := userID, Vote := vote }] }
    else p

/-- One iteration of the counting loop of post.go:170-176 on the pair
`(upvotes, downvotes)`. -/
def tallyVote (acc : Nat × Nat) (v : Vote) : Nat × Nat :=
  if v.Vote = 1 then (acc.1 + 1, acc.2)
  else if v.Vote = -1 then (acc.1, acc.2 + 1)
  else acc

/-- The pair `(upvotes, downvotes)` after the loop of post.go:168-176. -/
def countVotes (votes : List Vote) : Nat × Nat :=
  votes.foldl tallyVote (0, 0)

/-- The method `func (p *Post) CalculateUpvotePercentage()`
(post.go:167-179); `none` is the run-time panic of an integer division by
zero. -/
def Post.CalculateUpvotePercentage (p : Post) : Option Post :=
  let upvotes := (countVotes p.Votes).1
  let downvotes := (countVotes p.Votes).2
  let totalVotes := upvotes + downvotes
  if totalVotes = 0 then none
  else some { p with UpvotePercentage := ((upvotes * 100 / totalVotes : Nat) : Int) }

/-- The post built by `PostHandler.Add` (post_handler.go:64-73) for the
author `userID`: `Score` 0, an empty vote slice, then `p.Vote(user.ID, 1)`.
`UpvotePercentage` is whatever the request body decoded to. -/
def newPost (userID : String) (upvotePercentage : Int) : Post :=
  Post.Vote { Score := 0, Votes := [], UpvotePercentage := upvotePercentage } userID 1

/-- The post after a sequence of calls `p.Vote(userID, vote)`. -/
def applyVotes (p : Post) (calls : List (String × Int)) : Post :=
  calls.foldl (fun q c => Post.Vote q c.1 c.2) p

/-- The vote values passed by the handlers `Upvote`, `Downvote` and `Unvote`
(post_handler.go:281-291). -/
def handlerVote (vote : Int) : Prop := vote = 1 ∨ vote = -1 ∨ vote = 0

/-- The body of `PostHandler.vote` on the post (post_handler.go:307-308):
`p.Vote(user.ID, voteValue)` then `p.CalculateUpvotePercentage()`. -/
def voteHandler (p : Post) (userID : String) (voteValue : Int) : Option Post :=
  Post.CalculateUpvotePercentage (Post.Vote p userID voteValue)

/-- The users that have an entry in a vote slice, in order. -/
def voteUsers (votes : List Vote) : List String := votes.map (fun v => v.User)

/-- The exact sum of the vote values of a slice. -/
def voteSum (votes : List Vote) : Int := (votes.map (fun v => v.Vote)).sum

/-- The vote recorded for a user: the value of the first entry of that user,
`none` when there is none. -/
def voteOf : List Vote → String → Option Int
  | [], _ => none
  | v :: vs, userID => if v.User = userID then some v.Vote else voteOf vs userID

/-- The invariant of a post: `Score` is the sum of the vote values and no
user has two entries. -/
def PostInv (p : Post) : Prop :=
  p.Score = voteSum p.Votes ∧ (voteUsers p.Votes).Nodup

end RedditClone

namespace Ab

/-! ## Lemmas on maps and on the aggregation loop -/

theorem wrapInt64_idem_add (x y : Int) :
    wrapInt64 (wrapInt64 x + y) = wrapInt64 (x + y) := by
  unfold wrapInt64
  omega

theorem wrapInt64_of_range (x : Int) (h₁ : -9223372036854775808 ≤ x)
    (h₂ : x < 9223372036854775808) : wrapInt64 x = x := by
  unfold wrapInt64
  omega

theorem wrapInt64_range (x : Int) :
    -9223372036854775808 ≤ wrapInt64 x ∧ wrapInt64 x < 9223372036854775808 := by
  unfold wrapInt64
  omega

theorem mapGet_mapSet (m : IntMap) (k : Int) (v : Nat) (s : Int) :
    mapGet (mapSet m k v) s = if k = s then v else mapGet m s := by
  induction m with
  | nil => simp [mapSet, mapGet]
  | cons e rest ih =>
    obtain ⟨k', v'⟩ := e
    by_cases h : k' = k
    · subst h
      by_cases h2 : k' = s <;> simp [mapSet, mapGet, h2]
    · by_cases h2 : k' = s
      · subst h2
        have h3 : ¬ k = k' := fun e => h e.symm
        simp [mapSet, mapGet, h, h3]
      · simp [mapSet, mapGet, h, h2, ih]

theorem mem_mapKeys_mapSet (m : IntMap) (k : Int) (v : Nat) (s : Int) :
    s ∈ mapKeys (mapSet m k v) ↔ s = k ∨ s ∈ mapKeys m := by
  induction m with
  | nil => simp [mapSet, mapKeys]
  | cons e rest ih =>
    obtain ⟨k', v'⟩ := e
    by_cases h : k' = k
    · subst h
      simp [mapSet, mapKeys]
    · simp only [mapKeys] at ih
      simp only [mapSet, h, if_false, mapKeys, List.map_cons, List.mem_cons, ih]
      tauto

theorem nodup_mapKeys_mapSet (m : IntMap) (k : Int) (v : Nat)
    (h : (mapKeys m).Nodup) : (mapKeys (mapSet m k v)).Nodup := by
  induction m with
  | nil => simp [mapSet, mapKeys]
  | cons e rest ih =>
    obtain ⟨k', v'⟩ := e
    have hk : k' ∉ mapKeys rest ∧ (mapKeys rest).Nodup := by
      simpa [mapKeys] using h
    by_cases h1 : k' = k
    · subst h1
      simpa [mapSet, mapKeys] using hk
    · have hmem := mem_mapKeys_mapSet rest k v k'
      have ih' := ih hk.2
      simp only [mapKeys] at hmem ih' hk
      simp only [mapSet, h1, if_false, mapKeys, List.map_cons, List.nodup_cons]
      refine ⟨?_, ih'⟩
      rw [hmem]
      rintro (h2 | h2)
      · exact h1 h2
      · exact hk.1 h2

theorem sum_mapValues_mapSet (m : IntMap) (k : Int) (v : Nat) :
    (mapValues (mapSet m k v)).sum + mapGet m k = (mapValues m).sum + v := by
  induction m with
  | nil => simp [mapSet, mapValues, mapGet]
  | cons e rest ih =>
    obtain ⟨k', v'⟩ := e
    by_cases h : k' = k
    · subst h
      simp [mapSet, mapValues, mapGet]
      omega
    · simp only [mapValues] at ih
      simp only [mapSet, h, if_false, mapValues, mapGet, List.map_cons, List.sum_cons]
      omega

theorem aggregate_nil : aggregate [] = Summary.zero := rfl

theorem aggregate_snoc (rs : List result) (r : result) :
    aggregate (rs ++ [r]) = aggStep (aggregate rs) r := by
  simp [aggregate, List.foldl_append]

theorem okResults_snoc (rs : List result) (r : result) :
    okResults (rs ++ [r]) = okResults rs ++ (if r.error then [] else [r]) := by
  cases h : r.error <;> simp [okResults, List.filter_append, List.filter_cons, h]

theorem errResults_snoc (rs : List result) (r : result) :
    errResults (rs ++ [r]) = errResults rs ++ (if r.error then [r] else []) := by
  cases h : r.error <;> simp [errResults, List.filter_append, List.filter_cons, h]

theorem aggregate_failed (rs : List result) :
    (aggregate rs).failed = (errResults rs).length := by
  induction rs using List.reverseRecOn with
  | nil => rfl
  | append_singleton rs r ih =>
    rw [aggregate_snoc, errResults_snoc]
    cases h : r.error <;> simp [aggStep, h, ih]

theorem aggregate_successful (rs : List result) :
    (aggregate rs).successful = (okResults rs).length := by
  induction rs using List.reverseRecOn with
  | nil => rfl
  | append_singleton rs r ih =>
    rw [aggregate_snoc, okResults_snoc]
    cases h : r.error <;> simp [aggStep, h, ih]

theorem aggregate_totalDuration (rs : List result) :
    (aggregate rs).totalDuration = wrapInt64 (okDurationSum rs) := by
  induction rs using List.reverseRecOn with
  | nil => decide
  | append_singleton rs r ih =>
    rw [aggregate_snoc]
    unfold okDurationSum at ih ⊢
    rw [okResults_snoc]
    cases h : r.error
    · simp only [aggStep, h, ih, Bool.false_eq_true, if_false, List.map_append,
        List.map_cons, List.map_nil, List.sum_append, List.sum_cons, List.sum_nil, add_zero]
      exact wrapInt64_idem_add _ _
    · simp [aggStep, h, ih]

theorem aggregate_mapGet (rs : List result) (s : Int) :
    mapGet (aggregate rs).statusCodes s = okStatusCount rs s := by
  induction rs using List.reverseRecOn with
  | nil => rfl
  | append_singleton rs r ih =>
    rw [aggregate_snoc]
    unfold okStatusCount at ih ⊢
    rw [okResults_snoc]
    cases h : r.error
    · simp only [aggStep, h, Bool.false_eq_true, if_false, mapIncr, mapGet_mapSet,
        List.countP_append, List.countP_cons, List.countP_nil]
      by_cases h2 : r.status = s
      · subst h2
        simp [ih]
      · simp [h2, ih]
    · simp [aggStep, h, ih]

theorem aggregate_mem_keys (rs : List result) (s : Int) :
    s ∈ mapKeys (aggregate rs).statusCodes ↔ 0 < okStatusCount rs s := by
  induction rs using List.reverseRecOn with
  | nil => simp [aggregate_nil, Summary.zero, mapKeys, okStatusCount, okResults]
  | append_singleton rs r ih =>
    rw [aggregate_snoc]
    unfold okStatusCount at ih ⊢
    rw [okResults_snoc]
    cases h : r.error
    · simp only [aggStep, h, Bool.false_eq_true, if_false, mapIncr, mem_mapKeys_mapSet,
        List.countP_append, List.countP_cons, List.countP_nil, ih]
      by_cases h2 : r.status = s
      · subst h2
        simp
      · have h3 : ¬ s = r.status := fun e => h2 e.symm
        simp [h2, h3]
    · simp [aggStep, h, ih]

theorem aggregate_nodup_keys (rs : List result) :
    (mapKeys (aggregate rs).statusCodes).Nodup := by
  induction rs using List.reverseRecOn with
  | nil => simp [aggregate_nil, Summary.zero, mapKeys]
  | append_singleton rs r ih =>
    rw [aggregate_snoc]
    cases h : r.error
    · simp only [aggStep, h, Bool.false_eq_true, if_false, mapIncr]
      exact nodup_mapKeys_mapSet _ _ _ ih
    · simpa [aggStep, h] using ih

theorem aggregate_sum_values (rs : List result) :
    (mapValues (aggregate rs).statusCodes).sum = (aggregate rs).successful := by
  induction rs using List.reverseRecOn with
  | nil => rfl
  | append_singleton rs r ih =>
    rw [aggregate_snoc]
    cases h : r.error
    · simp only [aggStep, h, Bool.false_eq_true, if_false, mapIncr]
      have := sum_mapValues_mapSet (aggregate rs).statusCodes r.status
        (mapGet (aggregate rs).statusCodes r.status + 1)
      omega
    · simpa [aggStep, h] using ih

/-! ## Invariants of the transition system -/

theorem countP_set_add {α : Type} (p : α → Bool) (b : α) :
    ∀ (l : List α) (i : Nat) (a : α), l[i]? = some a →
      (l.set i b).countP p + (if p a then 1 else 0)
        = l.countP p + (if p b then 1 else 0)
  | [], i, a, h => by simp at h
  | x :: l, 0, a, h => by
    have hx : x = a := by simpa using h
    subst hx
    simp only [List.set_cons_zero, List.countP_cons]
    omega
  | x :: l, i + 1, a, h => by
    have h' : l[i]? = some a := by simpa using h
    have ih := countP_set_add p b l i a h'
    simp only [List.set_cons_succ, List.countP_cons]
    omega

theorem sum_map_set_add {α : Type} (f : α → Nat) (b : α) :
    ∀ (l : List α) (i : Nat) (a : α), l[i]? = some a →
      ((l.set i b).map f).sum + f a = (l.map f).sum + f b
  | [], i, a, h => by simp at h
  | x :: l, 0, a, h => by
    have hx : x = a := by simpa using h
    subst hx
    simp only [List.set_cons_zero, List.map_cons, List.sum_cons]
    omega
  | x :: l, i + 1, a, h => by
    have h' : l[i]? = some a := by simpa using h
    have ih := sum_map_set_add f b l i a h'
    simp only [List.set_cons_succ, List.map_cons, List.sum_cons]
    omega

theorem inv_init (cfg : Config) : Inv cfg State.init := by
  constructor <;> simp [State.init]

theorem inv_taskStep {cfg : Config} {s s' : State} {i : Nat} {resp : Option Int}
    {elapsed : Int} {pc : TaskPc} (hI : Inv cfg s) (hpc : s.tasks[i]? = some pc)
    (h : taskStep cfg s i resp elapsed pc = some s') : Inv cfg s' := by
  obtain ⟨hlen, hsem, hsemle, hwg, hcomp, hres, hwait⟩ := hI
  have key : ∀ (p : TaskPc → Bool) (b : TaskPc),
      (s.tasks.set i b).countP p
        = s.tasks.countP p + (if p b then 1 else 0) - (if p pc then 1 else 0) := by
    intro p b
    have := countP_set_add p b s.tasks i pc hpc
    omega
  have k1 := countP_set_add holdsPermit pc s.tasks i pc hpc
  have k2 := countP_set_add notDone pc s.tasks i pc hpc
  have k3 := countP_set_add hasCounted pc s.tasks i pc hpc
  have k4 := countP_set_add hasSent pc s.tasks i pc hpc
  have hw : s.waited = true → s.wg = 0 := fun e => (hwait e).2
  cases pc <;> simp only [taskStep] at h <;> (try split at h) <;>
    first
    | (cases h; done)
    | (cases h
       simp only [holdsPermit, notDone, hasCounted, hasSent, if_true, if_false,
         Bool.false_eq_true] at k1 k2 k3 k4
       refine ⟨by simpa using hlen, ?_, ?_, ?_, ?_, ?_, ?_⟩ <;>
         simp only [key, holdsPermit, notDone, hasCounted, hasSent, if_true, if_false,
           Bool.false_eq_true, List.length_append, List.length_singleton,
           List.length_set] <;>
         first
         | omega
         | exact hwait
         | (intro e; have := hwait e; have := hw e; omega))

theorem inv_step? {cfg : Config} {s s' : State} {a : Action} (hI : Inv cfg s)
    (h : step? cfg s a = some s') : Inv cfg s' := by
  cases a with
  | spawn =>
    obtain ⟨hlen, hsem, hsemle, hwg, hcomp, hres, hwait⟩ := hI
    simp only [step?] at h
    split at h
    · cases h
      refine ⟨?_, ?_, ?_, ?_, ?_, ?_, ?_⟩ <;>
        simp only [List.countP_append, List.countP_cons, List.countP_nil, holdsPermit,
          notDone, hasCounted, hasSent, List.length_append, List.length_singleton,
          if_true, if_false, Bool.false_eq_true] <;>
        first
        | omega
        | (intro e; have := hwait e; omega)
    · cases h
  | wait =>
    obtain ⟨hlen, hsem, hsemle, hwg, hcomp, hres, hwait⟩ := hI
    simp only [step?] at h
    split at h
    · rename_i hg
      cases h
      exact ⟨hlen, hsem, hsemle, hwg, hcomp, hres, fun _ => ⟨hg.2.1, hg.2.2⟩⟩
    · cases h
  | task i resp elapsed =>
    simp only [step?] at h
    split at h
    · cases h
    · rename_i pc hpc
      exact inv_taskStep hI hpc h

theorem inv_step {cfg : Config} {s : State} (a : Action) (hI : Inv cfg s) :
    Inv cfg (step cfg s a) := by
  unfold step
  cases h : step? cfg s a with
  | none => simpa using hI
  | some s' => simpa using inv_step? hI h

theorem inv_foldl (cfg : Config) (acts : List Action) :
    ∀ s, Inv cfg s → Inv cfg (acts.foldl (step cfg) s) := by
  induction acts with
  | nil => intro s h; exact h
  | cons a acts ih => intro s h; exact ih _ (inv_step a h)

theorem inv_exec (cfg : Config) (acts : List Action) : Inv cfg (exec cfg acts) :=
  inv_foldl cfg acts State.init (inv_init cfg)

/-! ## Progress and termination -/

theorem workLeft_taskStep {cfg : Config} {s s' : State} {i : Nat} {resp : Option Int}
    {elapsed : Int} {pc : TaskPc} (hpc : s.tasks[i]? = some pc)
    (h : taskStep cfg s i resp elapsed pc = some s') :
    workLeft cfg s = workLeft cfg s' + 1 := by
  have key : ∀ b : TaskPc,
      ((s.tasks.set i b).map stepsLeft).sum + stepsLeft pc
        = (s.tasks.map stepsLeft).sum + stepsLeft b :=
    fun b => sum_map_set_add stepsLeft b s.tasks i pc hpc
  cases pc <;> simp only [taskStep] at h <;> (try split at h) <;>
    first
    | (cases h; done)
    | (cases h
       rename_i st
       have k := key (.countOk st)
       simp only [workLeft, List.length_set, stepsLeft] at k ⊢
       omega)
    | (cases h
       have k1 := key .get
       have k2 := key .countErr
       have k3 := key .sendErr
       have k4 := key .release
       have k5 := key .wgDone
       have k6 := key .exited
       simp only [workLeft, List.length_set, stepsLeft] at k1 k2 k3 k4 k5 k6 ⊢
       omega)
    | (cases h
       rename_i st
       have k := key (.sendOk st)
       simp only [workLeft, List.length_set, stepsLeft] at k ⊢
       omega)

theorem workLeft_step? {cfg : Config} {s s' : State} {a : Action}
    (h : step? cfg s a = some s') : workLeft cfg s = workLeft cfg s' + 1 := by
  cases a with
  | spawn =>
    simp only [step?] at h
    split at h
    · cases h
      simp only [workLeft, List.map_append, List.sum_append, List.map_cons, List.map_nil,
        List.sum_cons, List.sum_nil, stepsLeft, List.length_append, List.length_singleton]
      omega
    · cases h
  | wait =>
    simp only [step?] at h
    split at h
    · rename_i hg
      cases h
      simp only [workLeft, hg.1]
      simp
    · cases h
  | task i resp elapsed =>
    simp only [step?] at h
    split at h
    · cases h
    · rename_i pc hpc
      exact workLeft_taskStep hpc h

theorem mem_of_getElem?_some {α : Type} :
    ∀ (l : List α) (i : Nat) (a : α), l[i]? = some a → a ∈ l
  | [], i, a, h => by simp at h
  | x :: l, 0, a, h => by
    have hx : x = a := by simpa using h
    simp [hx]
  | x :: l, i + 1, a, h => by
    have h' : l[i]? = some a := by simpa using h
    exact List.mem_cons_of_mem _ (mem_of_getElem?_some l i a h')

theorem countP_pos_of_getElem? {α : Type} (p : α → Bool) (l : List α) (i : Nat) (a : α)
    (h : l[i]? = some a) (hp : p a = true) : 0 < l.countP p := by
  have hmem : a ∈ l := mem_of_getElem?_some l i a h
  exact List.countP_pos_iff.mpr ⟨a, hmem, hp⟩

theorem countP_lt_length_of_getElem? {α : Type} (p : α → Bool) (l : List α) (i : Nat)
    (a : α) (h : l[i]? = some a) (hp : p a = false) : l.countP p < l.length := by
  have hmem : a ∈ l := mem_of_getElem?_some l i a h
  have hle := List.countP_le_length p (l := l)
  rcases Nat.lt_or_ge (l.countP p) l.length with h1 | h1
  · exact h1
  · have heq : l.countP p = l.length := Nat.le_antisymm hle h1
    have := (List.countP_eq_length.mp heq) a hmem
    simp [hp] at this

/-- A task past its send on `sem` and not yet returned can always execute
its next statement. -/
theorem running_enabled {cfg : Config} {s : State} {i : Nat} {pc : TaskPc}
    (hI : Inv cfg s) (hpc : s.tasks[i]? = some pc) (h1 : pc ≠ .acquire)
    (h2 : pc ≠ .exited) : ∃ s', step? cfg s (.task i none 0) = some s' := by
  have hsent : hasSent pc = false → s.results.length < cfg.requests := by
    intro hp
    have := countP_lt_length_of_getElem? hasSent s.tasks i pc hpc hp
    have := hI.results_eq
    have := hI.spawned_le
    omega
  have hheld : holdsPermit pc = true → 0 < s.sem := by
    intro hp
    have := countP_pos_of_getElem? holdsPermit s.tasks i pc hpc hp
    have := hI.sem_eq
    omega
  have hlive : notDone pc = true → 0 < s.wg := by
    intro hp
    have := countP_pos_of_getElem? notDone s.tasks i pc hpc hp
    have := hI.wg_eq
    omega
  simp only [step?, hpc]
  cases pc with
  | acquire => exact absurd rfl h1
  | exited => exact absurd rfl h2
  | get => exact ⟨_, rfl⟩
  | countErr => exact ⟨_, rfl⟩
  | countOk st => exact ⟨_, rfl⟩
  | sendErr => simp only [taskStep, hsent rfl, if_true]; exact ⟨_, rfl⟩
  | sendOk st => simp only [taskStep, hsent rfl, if_true]; exact ⟨_, rfl⟩
  | release => simp only [taskStep, hheld rfl, if_true]; exact ⟨_, rfl⟩
  | wgDone => simp only [taskStep, hlive rfl, if_true]; exact ⟨_, rfl⟩

/-- With at least one permit, some action can proceed in every state in
which `wg.Wait()` has not returned. -/
theorem progress {cfg : Config} {s : State} (hI : Inv cfg s)
    (hC : 1 ≤ cfg.concurrency) (hw : s.waited = false) :
    ∃ a s', step? cfg s a = some s' := by
  by_cases hlen : s.tasks.length < cfg.requests
  · exact ⟨.spawn, _, by simp only [step?, hlen, if_true]; rfl⟩
  have hlen' : s.tasks.length = cfg.requests := by
    have := hI.spawned_le
    omega
  by_cases hwg : s.wg = 0
  · exact ⟨.wait, _, by simp only [step?, hw, hlen', hwg, and_self, if_true]; rfl⟩
  have hpos : 0 < s.tasks.countP notDone := by
    have := hI.wg_eq
    omega
  obtain ⟨pc, hmem, hpc⟩ := List.countP_pos_iff.mp hpos
  obtain ⟨i, hi, hget⟩ := List.getElem_of_mem hmem
  have hget' : s.tasks[i]? = some pc := by
    rw [List.getElem?_eq_getElem hi, hget]
  by_cases hacq : pc = .acquire
  · subst hacq
    by_cases hsem : s.sem < cfg.concurrency
    · exact ⟨.task i none 0, _, by simp only [step?, hget', taskStep, hsem, if_true]; rfl⟩
    · have hheld : 0 < s.tasks.countP holdsPermit := by
        have := hI.sem_eq
        omega
      obtain ⟨pc', hmem', hpc'⟩ := List.countP_pos_iff.mp hheld
      obtain ⟨j, hj, hgetj⟩ := List.getElem_of_mem hmem'
      have hgetj' : s.tasks[j]? = some pc' := by
        rw [List.getElem?_eq_getElem hj, hgetj]
      obtain ⟨s', hs'⟩ := running_enabled hI hgetj'
        (by rintro rfl; simp [holdsPermit] at hpc')
        (by rintro rfl; simp [holdsPermit] at hpc')
      exact ⟨_, s', hs'⟩
  · obtain ⟨s', hs'⟩ := running_enabled hI hget' hacq
      (by rintro rfl; simp [notDone] at hpc)
    exact ⟨_, s', hs'⟩

theorem step_of_step? {cfg : Config} {s s' : State} {a : Action}
    (h : step? cfg s a = some s') : step cfg s a = s' := by
  simp [step, h]

/-- From every state satisfying the invariant, with at least one permit, the
run can be continued up to the return of `wg.Wait()`. -/
theorem completes_from (cfg : Config) (hC : 1 ≤ cfg.concurrency) :
    ∀ (n : Nat) (s : State), Inv cfg s → workLeft cfg s ≤ n →
      ∃ acts : List Action, (acts.foldl (step cfg) s).waited = true := by
  intro n
  induction n with
  | zero =>
    intro s hI hn
    cases hw : s.waited with
    | true => exact ⟨[], hw⟩
    | false =>
      exfalso
      simp only [workLeft, hw] at hn
      simp at hn
  | succ n ih =>
    intro s hI hn
    cases hw : s.waited with
    | true => exact ⟨[], hw⟩
    | false =>
      obtain ⟨a, s', hs'⟩ := progress hI hC hw
      have hlt := workLeft_step? hs'
      obtain ⟨acts, hacts⟩ := ih s' (inv_step? hI hs') (by omega)
      refine ⟨a :: acts, ?_⟩
      simpa [List.foldl_cons, step_of_step? hs'] using hacts

theorem exec_append (cfg : Config) (acts acts' : List Action) :
    exec cfg (acts ++ acts') = acts'.foldl (step cfg) (exec cfg acts) := by
  simp [exec, List.foldl_append]

theorem can_complete (cfg : Config) (hC : 1 ≤ cfg.concurrency) (acts : List Action) :
    ∃ acts' : List Action, (exec cfg (acts ++ acts')).waited = true := by
  obtain ⟨acts', h⟩ := completes_from cfg hC _ (exec cfg acts) (inv_exec cfg acts)
    (Nat.le_refl _)
  exact ⟨acts', by rw [exec_append]; exact h⟩

/-- When `wg.Wait()` has returned every task has been spawned and has
returned. -/
theorem all_exited_of_waited {cfg : Config} {s : State} (hI : Inv cfg s)
    (hw : s.waited = true) :
    s.tasks.length = cfg.requests ∧ ∀ pc ∈ s.tasks, pc = TaskPc.exited := by
  obtain ⟨hlen, hwg⟩ := hI.waited_imp hw
  refine ⟨hlen, ?_⟩
  have h0 : s.tasks.countP notDone = 0 := by
    have := hI.wg_eq
    omega
  intro pc hmem
  have := (List.countP_eq_zero.mp h0) pc hmem
  cases pc <;> simp [notDone] at this ⊢

theorem counts_of_waited {cfg : Config} {s : State} (hI : Inv cfg s)
    (hw : s.waited = true) :
    s.sem = 0 ∧ s.completed = cfg.requests ∧ s.results.length = cfg.requests := by
  obtain ⟨hlen, hall⟩ := all_exited_of_waited hI hw
  have h1 : s.tasks.countP holdsPermit = 0 := by
    apply List.countP_eq_zero.mpr
    intro pc hmem
    rw [hall pc hmem]
    simp [holdsPermit]
  have h2 : s.tasks.countP hasCounted = s.tasks.length := by
    apply List.countP_eq_length.mpr
    intro pc hmem
    rw [hall pc hmem]
    rfl
  have h3 : s.tasks.countP hasSent = s.tasks.length := by
    apply List.countP_eq_length.mpr
    intro pc hmem
    rw [hall pc hmem]
    rfl
  have := hI.sem_eq
  have := hI.completed_eq
  have := hI.results_eq
  omega

theorem ok_add_err_length (rs : List result) :
    (okResults rs).length + (errResults rs).length = rs.length := by
  induction rs with
  | nil => rfl
  | cons r rs ih =>
    cases h : r.error <;>
      simp [okResults, errResults, List.filter_cons, h] at ih ⊢ <;> omega


/-! ## The claims -/

/-- C1: for every request count and every concurrency ceiling, in every
state of every run the number of in-flight `client.Get` invocations is at most
the number of tasks that hold a permit of `sem`, which is the number of
elements buffered in `sem` and is at most the ceiling. -/
theorem C1_permits_le_concurrency (cfg : Config) (acts : List Action) :
    inFlight (exec cfg acts) ≤ permitsHeld (exec cfg acts)
      ∧ permitsHeld (exec cfg acts) = (exec cfg acts).sem
      ∧ permitsHeld (exec cfg acts) ≤ cfg.concurrency := by
  have hI := inv_exec cfg acts
  refine ⟨?_, hI.sem_eq.symm, ?_⟩
  · apply List.countP_mono_left
    intro pc _ h
    cases pc <;> simp [inGet, holdsPermit] at h ⊢
  · have h1 := hI.sem_eq
    have h2 := hI.sem_le
    unfold permitsHeld
    omega

/-- C2: with at least one permit a run can complete, and in every completed
run (after `wg.Wait()` has returned) each of the N tasks has sent exactly one
result, so the channel holds N results and the aggregation loop counts each
in exactly one of `successful` and `failed`: their sum is N. In every state
the channel holds one result per task that is past its send. -/
theorem C2_successful_add_failed (cfg : Config) (hC : 1 ≤ cfg.concurrency) :
    (∃ acts, (exec cfg acts).waited = true)
      ∧ ∀ acts,
        (exec cfg acts).results.length = (exec cfg acts).tasks.countP hasSent
        ∧ ((exec cfg acts).waited = true →
            (exec cfg acts).tasks.length = cfg.requests
            ∧ (exec cfg acts).results.length = cfg.requests
            ∧ (aggregate (exec cfg acts).results).successful
                + (aggregate (exec cfg acts).results).failed = cfg.requests) := by
  refine ⟨?_, ?_⟩
  · obtain ⟨acts', h⟩ := can_complete cfg hC []
    exact ⟨[] ++ acts', h⟩
  · intro acts
    have hI := inv_exec cfg acts
    refine ⟨hI.results_eq, ?_⟩
    intro hw
    have h1 := (all_exited_of_waited hI hw).1
    have h2 := (counts_of_waited hI hw).2.2
    refine ⟨h1, h2, ?_⟩
    rw [aggregate_successful, aggregate_failed, ok_add_err_length, h2]

theorem C2_successful_add_failed_witness :
    (1 : Nat) ≤ 1 ∧ (exec ⟨2, 1⟩ scheduleTwo).waited = true
      ∧ (aggregate (exec ⟨2, 1⟩ scheduleTwo).results).successful
          + (aggregate (exec ⟨2, 1⟩ scheduleTwo).results).failed = 2 :=
  ⟨by decide, by decide,
    (((C2_successful_add_failed ⟨2, 1⟩ (by decide)).2 scheduleTwo).2 (by decide)).2.2⟩

/-- C3 (as amended): for every finite sequence of results the aggregation
loop computes `failed` = the number of results with `error`, `successful` =
the number without, `totalDuration` = the sum of the durations of the
non-error results reduced to `int64` (the exact sum whenever that fits),
and `statusCodes` maps each status to the number of non-error results
carrying it, with distinct keys and no key for a status that never occurs.
Ten results alternating status 500 and error give 5, 5 and the map 500 -> 5. -/
theorem C3_aggregate (rs : List result) :
    (aggregate rs).failed = (errResults rs).length
      ∧ (aggregate rs).successful = (okResults rs).length
      ∧ (aggregate rs).totalDuration = wrapInt64 (okDurationSum rs)
      ∧ (-9223372036854775808 ≤ okDurationSum rs → okDurationSum rs < 9223372036854775808 →
          (aggregate rs).totalDuration = okDurationSum rs)
      ∧ (∀ s, mapGet (aggregate rs).statusCodes s = okStatusCount rs s)
      ∧ (∀ s, s ∈ mapKeys (aggregate rs).statusCodes ↔ 0 < okStatusCount rs s)
      ∧ (mapKeys (aggregate rs).statusCodes).Nodup
      ∧ (aggregate alternating500).successful = 5
      ∧ (aggregate alternating500).failed = 5
      ∧ (aggregate alternating500).statusCodes = [(500, 5)] := by
  refine ⟨aggregate_failed rs, aggregate_successful rs, aggregate_totalDuration rs, ?_,
    aggregate_mapGet rs, aggregate_mem_keys rs, aggregate_nodup_keys rs, by decide,
    by decide, by decide⟩
  intro h1 h2
  rw [aggregate_totalDuration, wrapInt64_of_range _ h1 h2]

theorem C3_aggregate_witness :
    (aggregate [⟨50000000, 200, false⟩, ⟨0, 0, true⟩, ⟨70000000, 404, false⟩]).totalDuration
      = 120000000 :=
  (C3_aggregate [⟨50000000, 200, false⟩, ⟨0, 0, true⟩, ⟨70000000, 404, false⟩]).2.2.2.1
    (by decide) (by decide)

/-- C3 as stated fails: two successful results of 2^62 ns each have the
exact duration sum 2^63, and the loop leaves -2^63 in `totalDuration`. -/
theorem C3_counterexample :
    okDurationSum [⟨4611686018427387904, 200, false⟩, ⟨4611686018427387904, 200, false⟩]
        = 9223372036854775808
      ∧ (aggregate [⟨4611686018427387904, 200, false⟩,
          ⟨4611686018427387904, 200, false⟩]).totalDuration = -9223372036854775808 := by
  decide

/-- C4: for every sequence of results, after aggregation the values of the
`statusCodes` map sum to `successful`. -/
theorem C4_status_tally_sum (rs : List result) :
    (mapValues (aggregate rs).statusCodes).sum = (aggregate rs).successful :=
  aggregate_sum_values rs

/-- C5: in every state of every run `completed` is the number of tasks that
have executed their increment, each of which has the outcome of its request
determined; with at least one permit a run can complete, and after
`wg.Wait()` has returned `completed` equals N and equals
`successful + failed` of the aggregation. -/
theorem C5_completed_counter (cfg : Config) (hC : 1 ≤ cfg.concurrency) :
    (∃ acts, (exec cfg acts).waited = true)
      ∧ ∀ acts,
        (exec cfg acts).completed = (exec cfg acts).tasks.countP hasCounted
        ∧ (exec cfg acts).completed ≤ (exec cfg acts).tasks.countP outcomeKnown
        ∧ (exec cfg acts).completed ≤ (exec cfg acts).tasks.length
        ∧ ((exec cfg acts).waited = true →
            (exec cfg acts).completed = cfg.requests
            ∧ (exec cfg acts).completed
                = (aggregate (exec cfg acts).results).successful
                  + (aggregate (exec cfg acts).results).failed) := by
  refine ⟨?_, ?_⟩
  · obtain ⟨acts', h⟩ := can_complete cfg hC []
    exact ⟨[] ++ acts', h⟩
  · intro acts
    have hI := inv_exec cfg acts
    refine ⟨hI.completed_eq, ?_, ?_, ?_⟩
    · rw [hI.completed_eq]
      apply List.countP_mono_left
      intro pc _ h
      cases pc <;> simp [hasCounted, outcomeKnown] at h ⊢
    · rw [hI.completed_eq]
      exact List.countP_le_length _
    · intro hw
      have h2 := counts_of_waited hI hw
      refine ⟨h2.2.1, ?_⟩
      rw [aggregate_successful, aggregate_failed, ok_add_err_length, h2.2.1, h2.2.2]

theorem C5_completed_counter_witness :
    (1 : Nat) ≤ 1 ∧ (exec ⟨2, 1⟩ scheduleTwo).waited = true
      ∧ (exec ⟨2, 1⟩ scheduleTwo).completed = 2 :=
  ⟨by decide, by decide,
    (((C5_completed_counter ⟨2, 1⟩ (by decide)).2 scheduleTwo).2.2.2 (by decide)).1⟩

/-- C6 (as amended): with at least one permit the run never deadlocks. In every state in
which `wg.Wait()` has not returned some goroutine can execute its next
statement; every executed statement lowers the bounded amount of work left by
one, so a run consists of at most 7N+1 statements; every run can be continued
to completion; the number of permits in `sem` is at all times the number of
tasks between their acquire and their release, on the error path and the
success path alike; and when the run has completed every one of the N tasks
has returned and no permit is held. -/
theorem C6_no_deadlock (cfg : Config) (hC : 1 ≤ cfg.concurrency) :
    (∀ acts, (exec cfg acts).waited = false →
        ∃ a s', step? cfg (exec cfg acts) a = some s')
      ∧ (∀ s a s', step? cfg s a = some s' → workLeft cfg s = workLeft cfg s' + 1)
      ∧ workLeft cfg State.init = 7 * cfg.requests + 1
      ∧ (∀ acts, ∃ acts', (exec cfg (acts ++ acts')).waited = true)
      ∧ (∀ acts, (exec cfg acts).sem = permitsHeld (exec cfg acts))
      ∧ (∀ acts, (exec cfg acts).waited = true →
          (exec cfg acts).sem = 0 ∧ permitsHeld (exec cfg acts) = 0
          ∧ (exec cfg acts).tasks.length = cfg.requests
          ∧ ∀ pc ∈ (exec cfg acts).tasks, pc = TaskPc.exited) := by
  refine ⟨?_, ?_, ?_, can_complete cfg hC, ?_, ?_⟩
  · intro acts hw
    exact progress (inv_exec cfg acts) hC hw
  · intro s a s' h
    exact workLeft_step? h
  · simp [workLeft, State.init]
  · intro acts
    exact (inv_exec cfg acts).sem_eq
  · intro acts hw
    have hI := inv_exec cfg acts
    have h1 := counts_of_waited hI hw
    have h2 := all_exited_of_waited hI hw
    have h3 := hI.sem_eq
    refine ⟨h1.1, ?_, h2.1, h2.2⟩
    unfold permitsHeld
    omega

theorem C6_no_deadlock_witness :
    (1 : Nat) ≤ 1 ∧ (exec ⟨2, 1⟩ scheduleTwo).waited = true
      ∧ (exec ⟨2, 1⟩ scheduleTwo).sem = 0 :=
  ⟨by decide, by decide,
    ((C6_no_deadlock ⟨2, 1⟩ (by decide)).2.2.2.2.2 scheduleTwo (by decide)).1⟩

/-- C6 as stated fails: `-c 0` is accepted and makes `sem` a channel of
capacity 0. With one request, once the task is spawned `wg.Wait()` has not
returned and no goroutine can execute its next statement (the task blocks on
`sem <- struct{}{}`, `main` on `wg.Wait()`), and in no schedule does
`wg.Wait()` ever return. -/
theorem C6_counterexample :
    semCapacity 0 = some 0
      ∧ (exec ⟨1, 0⟩ [Action.spawn]).waited = false
      ∧ (∀ a, step? ⟨1, 0⟩ (exec ⟨1, 0⟩ [Action.spawn]) a = none)
      ∧ (∀ acts, (exec ⟨1, 0⟩ acts).waited = false) := by
  have hs : exec ⟨1, 0⟩ [Action.spawn] = ⟨[TaskPc.acquire], 0, 1, 0, [], false⟩ := by
    decide
  have hstuck : ∀ a, step? ⟨1, 0⟩ ⟨[TaskPc.acquire], 0, 1, 0, [], false⟩ a = none := by
    intro a
    cases a with
    | spawn => simp [step?]
    | wait => simp [step?]
    | task i resp elapsed =>
      cases i with
      | zero => simp [step?, taskStep]
      | succ j => simp [step?]
  have hinit : ∀ a, step ⟨1, 0⟩ State.init a = State.init
      ∨ step ⟨1, 0⟩ State.init a = ⟨[TaskPc.acquire], 0, 1, 0, [], false⟩ := by
    intro a
    cases a with
    | spawn => right; decide
    | wait => left; decide
    | task i resp elapsed => left; simp [step, step?, State.init]
  have hreach : ∀ (acts : List Action) (s : State),
      (s = State.init ∨ s = ⟨[TaskPc.acquire], 0, 1, 0, [], false⟩) →
      (acts.foldl (step ⟨1, 0⟩) s).waited = false := by
    intro acts
    induction acts with
    | nil =>
      intro s h
      rcases h with h | h <;> rw [h] <;> rfl
    | cons a acts ih =>
      intro s h
      rw [List.foldl_cons]
      apply ih
      rcases h with h | h
      · rw [h]
        exact hinit a
      · rw [h]
        right
        simp [step, hstuck a]
  refine ⟨by decide, by decide, ?_, fun acts => hreach acts State.init (Or.inl rfl)⟩
  rw [hs]
  exact hstuck

/-- C7 (as amended): the capacity of `sem` is the value of the flag `-c`
whenever that value is not negative, and making the channel panics when it is
negative; hence the capacity is at least 1 exactly when `-c` is at least 1, as
it is for the default value 1. -/
theorem C7_semCapacity (c : Int) :
    (c < 0 → semCapacity c = none)
      ∧ (0 ≤ c → semCapacity c = some c.toNat ∧ (c.toNat : Int) = c)
      ∧ ((∃ k : Nat, semCapacity c = some k ∧ 1 ≤ k) ↔ 1 ≤ c)
      ∧ semCapacity defaultConcurrency = some 1 := by
  refine ⟨?_, ?_, ?_, by decide⟩
  · intro h
    simp [semCapacity, makeChan, h]
  · intro h
    have h' : ¬ c < 0 := by omega
    exact ⟨by simp [semCapacity, makeChan, h'], Int.toNat_of_nonneg h⟩
  · constructor
    · rintro ⟨k, hk, hk1⟩
      unfold semCapacity makeChan at hk
      split at hk
      · cases hk
      · cases hk
        omega
    · intro h
      have h' : ¬ c < 0 := by omega
      exact ⟨c.toNat, by simp [semCapacity, makeChan, h'], by omega⟩

theorem C7_semCapacity_witness :
    (0 : Int) ≤ 8 ∧ semCapacity 8 = some 8 :=
  ⟨by decide, ((C7_semCapacity 8).2.1 (by decide)).1⟩

/-- C7 as stated fails: with `-c 0` the channel is made with capacity 0, and
with `-c -1` it is not made at all. -/
theorem C7_counterexample :
    semCapacity 0 = some 0 ∧ semCapacity (-1) = none
      ∧ ¬ ∀ c : Int, ∃ k : Nat, semCapacity c = some k ∧ 1 ≤ k := by
  refine ⟨by decide, by decide, ?_⟩
  intro h
  obtain ⟨k, hk, hk1⟩ := h 0
  have h0 : semCapacity 0 = some 0 := by decide
  rw [h0] at hk
  cases hk
  omega

/-! ## The summary output -/

theorem string_append_left_cancel (a b c : String) (h : a ++ b = a ++ c) : b = c := by
  have h' := congrArg String.data h
  simp only [String.data_append] at h'
  exact String.ext (List.append_cancel_left h')

theorem renderAll_append (F : FloatFormat) (l₁ l₂ : List Line) :
    renderAll F (l₁ ++ l₂) = renderAll F l₁ ++ renderAll F l₂ := by
  induction l₁ with
  | nil => simp [renderAll]
  | cons l ls ih => simp [renderAll, ih, String.append_assoc]

theorem summaryLines_eq (requests : Nat) (totalTime : Int) (sum : Summary)
    (order : List (Int × Nat)) :
    summaryLines requests totalTime sum order
      = summaryHead requests totalTime sum ++ codeLines order := rfl

theorem summaryOutput_eq (F : FloatFormat) (requests : Nat) (totalTime : Int)
    (sum : Summary) (order : List (Int × Nat)) :
    summaryOutput F requests totalTime sum order
      = renderAll F (summaryHead requests totalTime sum)
        ++ renderAll F (codeLines order) := by
  rw [summaryOutput, summaryLines_eq, renderAll_append]

theorem average_mem_summaryLines (requests : Nat) (totalTime : Int) (sum : Summary)
    (order : List (Int × Nat)) (d : Int) (k : Nat) :
    Line.average d k ∈ summaryLines requests totalTime sum order
      ↔ 0 < sum.successful ∧ d = sum.totalDuration ∧ k = sum.successful := by
  unfold summaryLines summaryHead codeLines
  by_cases h : 0 < sum.successful
  · simp [h]
  · simp [h]

theorem aggregate_all_error (rs : List result) (h : ∀ r ∈ rs, r.error = true) :
    okResults rs = [] ∧ errResults rs = rs := by
  constructor
  · unfold okResults
    apply List.filter_eq_nil_iff.mpr
    intro r hr
    simp [h r hr]
  · unfold errResults
    apply List.filter_eq_self.mpr
    intro r hr
    exact h r hr

theorem aggregate_all_ok (rs : List result) (L : Int)
    (h : ∀ r ∈ rs, r.error = false ∧ r.duration = L) :
    okResults rs = rs ∧ errResults rs = [] ∧ okDurationSum rs = rs.length * L := by
  have h1 : okResults rs = rs := by
    unfold okResults
    apply List.filter_eq_self.mpr
    intro r hr
    simp [(h r hr).1]
  have h2 : errResults rs = [] := by
    unfold errResults
    apply List.filter_eq_nil_iff.mpr
    intro r hr
    simp [(h r hr).1]
  refine ⟨h1, h2, ?_⟩
  unfold okDurationSum
  rw [h1]
  clear h1 h2
  induction rs with
  | nil => simp
  | cons r rs ih =>
    have hr := (h r (List.mem_cons_self _ _)).2
    have ih' := ih (fun x hx => h x (List.mem_cons_of_mem _ hx))
    simp only [List.map_cons, List.sum_cons, List.length_cons, ih', hr]
    push_cast
    ring

theorem aggregate_replicate_ok (L st : Int) (n : Nat) :
    aggregate (List.replicate (n + 1) ⟨L, st, false⟩)
      = ⟨wrapInt64 ((n + 1 : Nat) * L), n + 1, 0, [(st, n + 1)]⟩ := by
  induction n with
  | zero =>
    simp [aggregate, aggStep, Summary.zero, mapIncr, mapSet, mapGet]
  | succ n ih =>
    rw [List.replicate_succ', aggregate_snoc, ih]
    simp only [aggStep, Bool.false_eq_true, if_false, mapIncr, mapSet, mapGet, if_true,
      wrapInt64_idem_add]
    congr 2
    push_cast
    ring

/-- C8 (as amended): for a fixed aggregate summary and elapsed time, two
invocations of the summary output that visit `statusCodes` in the orders
`o₁` and `o₂` write the same bytes up to and including the line
"Status code distribution:", and then the same status-code lines up to their
order; the whole output is byte-identical when both visit the map in the same
order, and in particular when the map has at most one key. -/
theorem C8_output_deterministic_up_to_order (F : FloatFormat) (requests : Nat)
    (totalTime : Int) (sum : Summary) (o₁ o₂ : List (Int × Nat))
    (h₁ : RangeOrder sum.statusCodes o₁) (h₂ : RangeOrder sum.statusCodes o₂) :
    (∃ head : String,
        summaryOutput F requests totalTime sum o₁ = head ++ renderAll F (codeLines o₁)
        ∧ summaryOutput F requests totalTime sum o₂ = head ++ renderAll F (codeLines o₂))
      ∧ (codeLines o₁).Perm (codeLines o₂)
      ∧ (o₁ = o₂ → summaryOutput F requests totalTime sum o₁
          = summaryOutput F requests totalTime sum o₂)
      ∧ (sum.statusCodes.length ≤ 1 →
          summaryOutput F requests totalTime sum o₁
            = summaryOutput F requests totalTime sum o₂) := by
  unfold RangeOrder at h₁ h₂
  refine ⟨⟨renderAll F (summaryHead requests totalTime sum), summaryOutput_eq _ _ _ _ _,
    summaryOutput_eq _ _ _ _ _⟩, ?_, ?_, ?_⟩
  · exact (h₁.trans h₂.symm).map _
  · intro h
    rw [h]
  · intro hlen
    have h12 : o₁.Perm o₂ := h₁.trans h₂.symm
    have hl : o₁.length ≤ 1 := by
      rw [h₁.length_eq]
      exact hlen
    have : o₁ = o₂ := by
      match o₁, hl, h12 with
      | [], _, h12 => exact (List.nil_perm.mp h12).symm
      | [x], _, h12 => exact (List.singleton_perm.mp h12)
    rw [this]

theorem C8_output_deterministic_up_to_order_witness :
    RangeOrder (aggregate alternating500).statusCodes [(500, 5)]
      ∧ summaryOutput ⟨fun _ => "1.000", fun _ _ => "0.000", fun _ _ => "10.00"⟩ 10
          1000000000 (aggregate alternating500) [(500, 5)]
        = summaryOutput ⟨fun _ => "1.000", fun _ _ => "0.000", fun _ _ => "10.00"⟩ 10
          1000000000 (aggregate alternating500) [(500, 5)] :=
  ⟨by decide,
    (C8_output_deterministic_up_to_order _ 10 1000000000 (aggregate alternating500)
      [(500, 5)] [(500, 5)] (by decide) (by decide)).2.2.2 (by decide)⟩

/-- C8 as stated fails: with one response of status 200 and one of status
500 the map has two keys, both orders are orders in which `range` may visit
it, and the two outputs differ, whatever the rendering of the floating-point
values. -/
theorem C8_counterexample :
    (aggregate [⟨1000000, 200, false⟩, ⟨1000000, 500, false⟩]).statusCodes
        = [(200, 1), (500, 1)]
      ∧ RangeOrder [(200, 1), (500, 1)] [(200, 1), (500, 1)]
      ∧ RangeOrder [(200, 1), (500, 1)] [(500, 1), (200, 1)]
      ∧ ∀ (F : FloatFormat) (totalTime : Int),
          summaryOutput F 2 totalTime
              (aggregate [⟨1000000, 200, false⟩, ⟨1000000, 500, false⟩])
              [(200, 1), (500, 1)]
            ≠ summaryOutput F 2 totalTime
              (aggregate [⟨1000000, 200, false⟩, ⟨1000000, 500, false⟩])
              [(500, 1), (200, 1)] := by
  refine ⟨by decide, by decide, by decide, ?_⟩
  intro F totalTime h
  rw [summaryOutput_eq, summaryOutput_eq] at h
  have h' := string_append_left_cancel _ _ _ h
  simp only [codeLines, List.map, renderAll, render] at h'
  revert h'
  decide

/-- C9: if every result is a transport error then `successful` is 0,
`failed` is the number of results and no "Average response time" line is
printed; for every summary that line is printed exactly when `successful` is
positive, and whenever it is printed the divisor is `successful` and is not
zero. -/
theorem C9_average_line_omitted (rs : List result) (requests : Nat) (totalTime : Int)
    (sum : Summary) (order : List (Int × Nat)) :
    ((∀ r ∈ rs, r.error = true) →
        (aggregate rs).successful = 0 ∧ (aggregate rs).failed = rs.length
        ∧ ∀ d k, Line.average d k ∉ summaryLines requests totalTime (aggregate rs) order)
      ∧ ((∃ d k, Line.average d k ∈ summaryLines requests totalTime sum order)
          ↔ 0 < sum.successful)
      ∧ (∀ d k, Line.average d k ∈ summaryLines requests totalTime sum order →
          d = sum.totalDuration ∧ k = sum.successful ∧ k ≠ 0) := by
  refine ⟨?_, ?_, ?_⟩
  · intro h
    obtain ⟨h1, h2⟩ := aggregate_all_error rs h
    have hs : (aggregate rs).successful = 0 := by
      rw [aggregate_successful, h1]
      rfl
    refine ⟨hs, by rw [aggregate_failed, h2], ?_⟩
    intro d k hmem
    have := ((average_mem_summaryLines _ _ _ _ _ _).mp hmem).1
    omega
  · constructor
    · rintro ⟨d, k, hmem⟩
      exact ((average_mem_summaryLines _ _ _ _ _ _).mp hmem).1
    · intro h
      exact ⟨_, _, (average_mem_summaryLines _ _ _ _ _ _).mpr ⟨h, rfl, rfl⟩⟩
  · intro d k hmem
    obtain ⟨h1, h2, h3⟩ := (average_mem_summaryLines _ _ _ _ _ _).mp hmem
    exact ⟨h2, h3, by omega⟩

theorem C9_average_line_omitted_witness :
    (aggregate (List.replicate 3 ⟨0, 0, true⟩)).successful = 0
      ∧ (aggregate (List.replicate 3 ⟨0, 0, true⟩)).failed = 3
      ∧ summaryLines 3 2000000000 (aggregate (List.replicate 3 ⟨0, 0, true⟩)) []
          = [Line.header, Line.totalTime 2000000000, Line.requests 3 0 3,
              Line.rate 3 2000000000, Line.distribution] :=
  ⟨((C9_average_line_omitted (List.replicate 3 ⟨0, 0, true⟩) 3 2000000000
      Summary.zero []).1 (by decide)).1,
    ((C9_average_line_omitted (List.replicate 3 ⟨0, 0, true⟩) 3 2000000000
      Summary.zero []).1 (by decide)).2.1,
    by decide⟩

/-- C10 (as amended): if all N >= 1 results are successes with duration L
and N * L fits in `int64`, then `successful` = N, `failed` = 0,
`totalDuration` = N * L, so the exact quotient of `totalDuration` by
`successful` is L, and the average line is printed with these two operands:
its text is the `%.3f` rendering of the `float64` value
`(N * L).Seconds() / float64(N)`. A hundred results of status 200 and 50ms
give 100, 0, the map 200 -> 100 and the line
"Average response time: 0.050s". -/
theorem C10_all_success_average (rs : List result) (L : Int)
    (hN : 1 ≤ rs.length) (h : ∀ r ∈ rs, r.error = false ∧ r.duration = L)
    (hlo : -9223372036854775808 ≤ (rs.length : Int) * L)
    (hhi : (rs.length : Int) * L < 9223372036854775808) :
    (aggregate rs).successful = rs.length
      ∧ (aggregate rs).failed = 0
      ∧ (aggregate rs).totalDuration = rs.length * L
      ∧ (aggregate rs).totalDuration / ((aggregate rs).successful : Int) = L
      ∧ (aggregate rs).totalDuration % ((aggregate rs).successful : Int) = 0
      ∧ (∀ requests totalTime order,
          Line.average (rs.length * L) rs.length
            ∈ summaryLines requests totalTime (aggregate rs) order)
      ∧ render goFloatFormat
          (Line.average (aggregate rs).totalDuration (aggregate rs).successful)
          = "Average response time: "
            ++ formatFixed 3 (averageSeconds (rs.length * L) rs.length) ++ "s\n"
      ∧ aggregate (List.replicate 100 ⟨50000000, 200, false⟩)
          = ⟨5000000000, 100, 0, [(200, 100)]⟩
      ∧ (5000000000 : Int) / 100 = 50000000
      ∧ render goFloatFormat (Line.average 5000000000 100)
          = "Average response time: 0.050s\n" := by
  obtain ⟨h1, h2, h3⟩ := aggregate_all_ok rs L h
  have hs : (aggregate rs).successful = rs.length := by
    rw [aggregate_successful, h1]
  have hf : (aggregate rs).failed = 0 := by
    rw [aggregate_failed, h2]
    rfl
  have ht : (aggregate rs).totalDuration = rs.length * L := by
    rw [aggregate_totalDuration, h3, wrapInt64_of_range _ hlo hhi]
  have hpos : (0 : Int) < rs.length := by omega
  refine ⟨hs, hf, ht, ?_, ?_, ?_, ?_, aggregate_replicate_ok 50000000 200 99, by decide,
    by decide⟩
  · rw [ht, hs]
    exact Int.mul_ediv_cancel_left L (by omega)
  · rw [ht, hs]
    exact Int.mul_emod_right _ _
  · intro requests totalTime order
    apply (average_mem_summaryLines _ _ _ _ _ _).mpr
    exact ⟨by omega, ht.symm, hs.symm⟩
  · rw [ht, hs]
    rfl

theorem C10_all_success_average_witness :
    (aggregate (List.replicate 4 ⟨50000000, 200, false⟩)).totalDuration
        / ((aggregate (List.replicate 4 ⟨50000000, 200, false⟩)).successful : Int)
      = 50000000 :=
  (C10_all_success_average (List.replicate 4 ⟨50000000, 200, false⟩) 50000000
    (by decide) (by decide) (by decide) (by decide)).2.2.2.1

/-- C10 as stated fails. Three successes of 1.5ms each give `totalDuration` =
4.5ms and `successful` = 3; the program divides in `float64`, the quotient
is below 0.0015 and the line reads "Average response time: 0.001s", where
1.5ms itself prints as 0.002. And four hundred million successes of 29
seconds each have the duration sum 1.16e19 ns, above 2^63: `totalDuration`
wraps to a negative value and its quotient by `successful` is not 29
seconds. -/
theorem C10_counterexample :
    aggregate (List.replicate 3 ⟨1500000, 200, false⟩) = ⟨4500000, 3, 0, [(200, 3)]⟩
      ∧ render goFloatFormat (Line.average 4500000 3) = "Average response time: 0.001s\n"
      ∧ goFloatFormat.seconds3 1500000 = "0.002"
      ∧ (aggregate (List.replicate 400000000 ⟨29000000000, 200, false⟩)).successful
        = 400000000
      ∧ (aggregate (List.replicate 400000000 ⟨29000000000, 200, false⟩)).failed = 0
      ∧ (aggregate (List.replicate 400000000 ⟨29000000000, 200, false⟩)).totalDuration
          = -6846744073709551616
      ∧ (aggregate (List.replicate 400000000 ⟨29000000000, 200, false⟩)).totalDuration
          / ((aggregate (List.replicate 400000000
              ⟨29000000000, 200, false⟩)).successful : Int)
          ≠ 29000000000 := by
  have hall : ∀ r ∈ List.replicate 400000000 (⟨29000000000, 200, false⟩ : result),
      r.error = false ∧ r.duration = 29000000000 := by
    intro r hr
    rw [List.eq_of_mem_replicate hr]
    exact ⟨rfl, rfl⟩
  obtain ⟨h1, h2, h3⟩ := aggregate_all_ok _ _ hall
  have hs : (aggregate (List.replicate 400000000 ⟨29000000000, 200, false⟩)).successful
      = 400000000 := by
    rw [aggregate_successful, h1, List.length_replicate]
  have ht : (aggregate (List.replicate 400000000 ⟨29000000000, 200, false⟩)).totalDuration
      = -6846744073709551616 := by
    rw [aggregate_totalDuration, h3, List.length_replicate]
    decide
  refine ⟨by decide, by decide, by decide, hs, by rw [aggregate_failed, h2]; rfl, ht, ?_⟩
  rw [ht, hs]
  decide

/-! ## The progress reporter -/

theorem runInv_step? {cfg : Config} {s s' : RunState} {a : RunAction}
    (hI : Inv cfg s.sys)
    (hP : ∃ ticks : List Nat, s.reporter.printed
      = ticks.map ProgressLine.periodic
        ++ (if s.reporter.returned then finalLines cfg.requests else []))
    (h : runStep? cfg s a = some s') :
    Inv cfg s'.sys
      ∧ ∃ ticks : List Nat, s'.reporter.printed
        = ticks.map ProgressLine.periodic
          ++ (if s'.reporter.returned then finalLines cfg.requests else []) := by
  obtain ⟨ticks, hticks⟩ := hP
  cases a with
  | run a =>
    simp only [runStep?, Option.map_eq_some'] at h
    obtain ⟨sys', hsys, rfl⟩ := h
    exact ⟨inv_step? hI hsys, ticks, hticks⟩
  | tick =>
    simp only [runStep?] at h
    split at h
    · rename_i hr
      cases h
      refine ⟨hI, ticks ++ [s.sys.completed], ?_⟩
      simp only [hr, Bool.false_eq_true, if_false, List.append_nil] at hticks
      simp [Reporter.tick, hr, hticks]
    · cases h
  | stop =>
    simp only [runStep?] at h
    split at h
    · rename_i hr
      cases h
      have hc := (counts_of_waited hI hr.2).2.1
      refine ⟨hI, ticks, ?_⟩
      simp only [hr.1, Bool.false_eq_true, if_false, List.append_nil] at hticks
      simp [Reporter.stop, hticks, hc]
    · cases h

theorem runInv_foldl (cfg : Config) (acts : List RunAction) :
    ∀ s : RunState, Inv cfg s.sys →
      (∃ ticks : List Nat, s.reporter.printed
        = ticks.map ProgressLine.periodic
          ++ (if s.reporter.returned then finalLines cfg.requests else [])) →
      Inv cfg (acts.foldl (runStep cfg) s).sys
        ∧ ∃ ticks : List Nat, (acts.foldl (runStep cfg) s).reporter.printed
          = ticks.map ProgressLine.periodic
            ++ (if (acts.foldl (runStep cfg) s).reporter.returned
                then finalLines cfg.requests else []) := by
  induction acts with
  | nil => intro s hI hP; exact ⟨hI, hP⟩
  | cons a acts ih =>
    intro s hI hP
    simp only [List.foldl_cons]
    cases h : runStep? cfg s a with
    | none =>
      have : runStep cfg s a = s := by simp [runStep, h]
      simp only [this]
      exact ih s hI hP
    | some s' =>
      have : runStep cfg s a = s' := by simp [runStep, h]
      simp only [this]
      obtain ⟨hI', hP'⟩ := runInv_step? hI hP h
      exact ih s' hI' hP'

theorem runExec_printed (cfg : Config) (acts : List RunAction) :
    ∃ ticks : List Nat, (runExec cfg acts).reporter.printed
      = ticks.map ProgressLine.periodic
        ++ (if (runExec cfg acts).reporter.returned
            then finalLines cfg.requests else []) :=
  (runInv_foldl cfg acts RunState.init (inv_init cfg) ⟨[], by simp [RunState.init, Reporter.init]⟩).2

theorem runStep_returned (cfg : Config) (s : RunState) (a : RunAction)
    (h : s.reporter.returned = true) : (runStep cfg s a).reporter = s.reporter := by
  cases a with
  | run a =>
    cases hs : step? cfg s.sys a <;> simp [runStep, runStep?, hs]
  | tick => simp [runStep, runStep?, h]
  | stop => simp [runStep, runStep?, h]

/-- C11: what the reporter does on the stop signal. It loads `completed`
once, which by then equals the request count N, and makes the final call
exactly when N is positive and not a multiple of 10000, whatever it printed
before; after that it has returned and no further action changes what it
printed. In the run `scheduleTickThenStop` the final line repeats the
periodic line printed just before it, and in every run of 10000 requests no
final line is printed at all. -/
theorem C11_final_progress_line (cfg : Config) (acts : List RunAction)
    (h : (runExec cfg acts).reporter.returned = true) :
    (∃ ticks : List Nat, (runExec cfg acts).reporter.printed
        = ticks.map ProgressLine.periodic ++ finalLines cfg.requests)
      ∧ (finalLines cfg.requests
          = if 0 < cfg.requests ∧ cfg.requests % 10000 ≠ 0
            then [ProgressLine.final cfg.requests] else [])
      ∧ (∀ a, (runStep cfg (runExec cfg acts) a).reporter = (runExec cfg acts).reporter)
      ∧ (cfg.requests = 10000 →
          ∀ l ∈ (runExec cfg acts).reporter.printed, l.isFinal = false)
      ∧ (runExec ⟨1, 1⟩ scheduleTickThenStop).reporter
          = ⟨[ProgressLine.periodic 1, ProgressLine.final 1], true⟩
      ∧ (ProgressLine.final 1).text = (ProgressLine.periodic 1).text := by
  obtain ⟨ticks, hticks⟩ := runExec_printed cfg acts
  rw [h] at hticks
  simp only [if_true] at hticks
  refine ⟨⟨ticks, hticks⟩, rfl, fun a => runStep_returned cfg _ a h, ?_, by decide, by decide⟩
  intro hN l hl
  rw [hticks, hN] at hl
  have hfin : finalLines 10000 = [] := by decide
  rw [hfin, List.append_nil] at hl
  obtain ⟨c, _, rfl⟩ := List.mem_map.mp hl
  rfl

theorem C11_final_progress_line_witness :
    (runExec ⟨1, 1⟩ scheduleTickThenStop).reporter.returned = true
      ∧ finalLines 1 = [ProgressLine.final 1] :=
  ⟨by decide,
    (C11_final_progress_line ⟨1, 1⟩ scheduleTickThenStop (by decide)).2.1.trans (by decide)⟩

end Ab

namespace RedditClone

/-! ## Lemmas on `Post.Vote` -/

theorem wrapInt_idem_add (x y : Int) : wrapInt (wrapInt x + y) = wrapInt (x + y) := by
  unfold wrapInt
  omega

theorem wrapInt_of_range (x : Int) (h₁ : -9223372036854775808 ≤ x)
    (h₂ : x < 9223372036854775808) : wrapInt x = x := by
  unfold wrapInt
  omega

theorem existingVoteIndex_none {votes : List Vote} {userID : String}
    (h : existingVoteIndex votes userID = none) : userID ∉ voteUsers votes := by
  induction votes with
  | nil => simp [voteUsers]
  | cons v vs ih =>
    by_cases hv : v.User = userID
    · simp [existingVoteIndex, hv] at h
    · simp only [existingVoteIndex, hv, if_false, Option.map_eq_none'] at h
      have hne : ¬ userID = v.User := fun e => hv e.symm
      simpa [voteUsers, hne] using ih h

theorem existingVoteIndex_some {votes : List Vote} {userID : String} {i : Nat}
    (h : existingVoteIndex votes userID = some i) :
    ∃ pre v post, votes = pre ++ v :: post ∧ pre.length = i ∧ v.User = userID
      ∧ userID ∉ voteUsers pre := by
  induction votes generalizing i with
  | nil => simp [existingVoteIndex] at h
  | cons v vs ih =>
    by_cases hv : v.User = userID
    · simp only [existingVoteIndex, hv, if_true, Option.some.injEq] at h
      exact ⟨[], v, vs, rfl, by simpa using h, hv, by simp [voteUsers]⟩
    · simp only [existingVoteIndex, hv, if_false, Option.map_eq_some'] at h
      obtain ⟨j, hj, rfl⟩ := h
      obtain ⟨pre, w, post, hvs, hlen, hw, hpre⟩ := ih hj
      have hne : ¬ userID = v.User := fun e => hv e.symm
      exact ⟨v :: pre, w, post, by rw [hvs]; rfl, by simp [hlen], hw,
        by simpa [voteUsers, hne] using hpre⟩

theorem getElem?_append_length (pre : List Vote) (v : Vote) (post : List Vote) :
    (pre ++ v :: post)[pre.length]? = some v := by
  induction pre with
  | nil => simp
  | cons w ws ih => simpa using ih

/-- The four outcomes of `Post.Vote`, on the decomposition of the vote slice
around the entry of the user. -/
theorem vote_cases (p : Post) (userID : String) (vote : Int) :
    (userID ∉ voteUsers p.Votes ∧ vote = 0 ∧ Post.Vote p userID vote = p)
      ∨ (userID ∉ voteUsers p.Votes ∧ vote ≠ 0
          ∧ Post.Vote p userID vote
            = { p with
                Score := wrapInt (p.Score + vote)
                Votes := p.Votes ++ [{ User := userID, Vote := vote }] })
      ∨ (∃ pre v post, p.Votes = pre ++ v :: post ∧ v.User = userID
          ∧ userID ∉ voteUsers pre ∧ vote = 0
          ∧ Post.Vote p userID vote
            = { p with Score := wrapInt (p.Score - v.Vote), Votes := pre ++ post })
      ∨ (∃ pre v post, p.Votes = pre ++ v :: post ∧ v.User = userID
          ∧ userID ∉ voteUsers pre ∧ vote ≠ 0
          ∧ Post.Vote p userID vote
            = { p with
                Score := wrapInt (wrapInt (p.Score - v.Vote) + vote)
                Votes := pre ++ { User := userID, Vote := vote } :: post }) := by
  cases h : existingVoteIndex p.Votes userID with
  | none =>
    have hu := existingVoteIndex_none h
    by_cases hv : vote = 0
    · left
      exact ⟨hu, hv, by simp [Post.Vote, h, hv]⟩
    · right; left
      exact ⟨hu, hv, by simp [Post.Vote, h, hv]⟩
  | some i =>
    obtain ⟨pre, v, post, hvs, hlen, hv, hpre⟩ := existingVoteIndex_some h
    have hget : p.Votes[i]? = some v := by
      rw [hvs, ← hlen]
      exact getElem?_append_length pre v post
    have htake : p.Votes.take i ++ p.Votes.drop (i + 1) = pre ++ post := by
      rw [hvs, ← hlen]
      simp
    have hset : ∀ w : Vote, p.Votes.set i w = pre ++ w :: post := by
      intro w
      rw [hvs, ← hlen]
      simp
    right; right
    by_cases h0 : vote = 0
    · left
      refine ⟨pre, v, post, hvs, hv, hpre, h0, ?_⟩
      simp only [Post.Vote, h, hget, h0, if_true, htake]
    · right
      refine ⟨pre, v, post, hvs, hv, hpre, h0, ?_⟩
      simp only [Post.Vote, h, hget, h0, if_false, hset, hv]

theorem voteSum_nil : voteSum [] = 0 := rfl

theorem voteUsers_nil : voteUsers [] = [] := rfl

theorem voteSum_append (a b : List Vote) : voteSum (a ++ b) = voteSum a + voteSum b := by
  simp [voteSum]

theorem voteSum_cons (v : Vote) (b : List Vote) : voteSum (v :: b) = v.Vote + voteSum b := by
  simp [voteSum]

theorem voteUsers_append (a b : List Vote) :
    voteUsers (a ++ b) = voteUsers a ++ voteUsers b := by
  simp [voteUsers]

theorem voteUsers_cons (v : Vote) (b : List Vote) :
    voteUsers (v :: b) = v.User :: voteUsers b := by
  simp [voteUsers]

theorem voteOf_eq_none {votes : List Vote} {userID : String}
    (h : userID ∉ voteUsers votes) : voteOf votes userID = none := by
  induction votes with
  | nil => rfl
  | cons v vs ih =>
    rw [voteUsers_cons, List.mem_cons, not_or] at h
    have hne : ¬ v.User = userID := fun e => h.1 e.symm
    simp [voteOf, hne, ih h.2]

theorem voteOf_append_of_not_mem {pre : List Vote} {userID : String}
    (h : userID ∉ voteUsers pre) (rest : List Vote) :
    voteOf (pre ++ rest) userID = voteOf rest userID := by
  induction pre with
  | nil => rfl
  | cons v vs ih =>
    rw [voteUsers_cons, List.mem_cons, not_or] at h
    have hne : ¬ v.User = userID := fun e => h.1 e.symm
    simp [voteOf, hne, ih h.2]

theorem voteOf_filter {u userID : String} (hne : u ≠ userID) (votes : List Vote) :
    voteOf votes u = voteOf (votes.filter (fun v => decide (v.User ≠ userID))) u := by
  induction votes with
  | nil => rfl
  | cons v vs ih =>
    rw [List.filter_cons]
    split
    · by_cases hvu : v.User = u
      · simp only [voteOf, hvu, if_true]
      · simp only [voteOf, hvu, if_false]
        exact ih
    · rename_i hf
      have hv : v.User = userID := by simpa using hf
      have hvu : ¬ v.User = u := fun e => hne (e.symm.trans hv)
      simp only [voteOf, hvu, if_false]
      exact ih

theorem filter_other_append (userID : String) (pre post : List Vote) (v : Vote)
    (hv : v.User = userID) :
    (pre ++ v :: post).filter (fun w => decide (w.User ≠ userID))
      = (pre ++ post).filter (fun w => decide (w.User ≠ userID)) := by
  simp [List.filter_append, List.filter_cons, hv]

/-- C12 (as amended): for every post satisfying the invariant (`Score` is
the exact sum of the vote values, at most one entry per user), every user and
every vote value, after `p.Vote(userID, vote)` there is again at most one
entry per user, `Score` is the sum of the vote values in `int` arithmetic,
and the invariant holds again whenever that sum fits in `int`; the user's
recorded vote is `vote` (no entry when `vote` is 0) and the entries of all
other users are unchanged. -/
theorem C12_vote_preserves_invariant (p : Post) (userID : String) (vote : Int)
    (h : PostInv p) :
    (voteUsers (Post.Vote p userID vote).Votes).Nodup
      ∧ (-9223372036854775808 ≤ p.Score → p.Score < 9223372036854775808 →
          (Post.Vote p userID vote).Score
            = wrapInt (voteSum (Post.Vote p userID vote).Votes))
      ∧ (-9223372036854775808 ≤ voteSum (Post.Vote p userID vote).Votes →
          voteSum (Post.Vote p userID vote).Votes < 9223372036854775808 →
          PostInv (Post.Vote p userID vote))
      ∧ voteOf (Post.Vote p userID vote).Votes userID
          = (if vote = 0 then none else some vote)
      ∧ (∀ u, u ≠ userID →
          voteOf (Post.Vote p userID vote).Votes u = voteOf p.Votes u)
      ∧ (Post.Vote p userID vote).Votes.filter (fun w => decide (w.User ≠ userID))
          = p.Votes.filter (fun w => decide (w.User ≠ userID)) := by
  obtain ⟨hscore, hnodup⟩ := h
  have hother : ∀ q : Post,
      q.Votes.filter (fun w => decide (w.User ≠ userID))
        = p.Votes.filter (fun w => decide (w.User ≠ userID)) →
      ∀ u, u ≠ userID → voteOf q.Votes u = voteOf p.Votes u := by
    intro q hq u hu
    rw [voteOf_filter hu q.Votes, voteOf_filter hu p.Votes, hq]
  rcases vote_cases p userID vote with
    ⟨hu, h0, hp⟩ | ⟨hu, h0, hp⟩ | ⟨pre, v, post, hvs, hv, hpre, h0, hp⟩
      | ⟨pre, v, post, hvs, hv, hpre, h0, hp⟩
  · rw [hp]
    refine ⟨hnodup, ?_, fun _ _ => ⟨hscore, hnodup⟩, ?_, fun _ _ => rfl, rfl⟩
    · intro h1 h2
      rw [← hscore, wrapInt_of_range _ h1 h2]
    · rw [voteOf_eq_none hu, if_pos h0]
  · have hfil : (Post.Vote p userID vote).Votes.filter (fun w => decide (w.User ≠ userID))
        = p.Votes.filter (fun w => decide (w.User ≠ userID)) := by
      rw [hp]
      simp [List.filter_append, List.filter_cons]
    have hnd : (voteUsers (Post.Vote p userID vote).Votes).Nodup := by
      rw [hp]
      simp only [voteUsers_append, voteUsers_cons, voteUsers_nil]
      rw [List.nodup_append]
      refine ⟨hnodup, List.nodup_singleton _, ?_⟩
      intro a ha hb
      rw [List.mem_singleton] at hb
      subst hb
      exact hu ha
    have hsc : (Post.Vote p userID vote).Score
        = wrapInt (voteSum (Post.Vote p userID vote).Votes) := by
      rw [hp]
      simp only [voteSum_append, voteSum_cons, voteSum_nil, add_zero, hscore]
    refine ⟨hnd, fun _ _ => hsc, ?_, ?_, hother _ hfil, hfil⟩
    · intro h1 h2
      exact ⟨by rw [hsc, wrapInt_of_range _ h1 h2], hnd⟩
    · rw [hp, if_neg h0]
      simp only []
      rw [voteOf_append_of_not_mem hu]
      simp [voteOf]
  · have hnd0 : (voteUsers pre ++ v.User :: voteUsers post).Nodup := by
      rw [hvs, voteUsers_append, voteUsers_cons] at hnodup
      exact hnodup
    have hpost : userID ∉ voteUsers post := by
      intro hmem
      have := (List.nodup_append.mp hnd0).2.1
      rw [List.nodup_cons] at this
      exact this.1 (hv ▸ hmem)
    have hfil : (Post.Vote p userID vote).Votes.filter (fun w => decide (w.User ≠ userID))
        = p.Votes.filter (fun w => decide (w.User ≠ userID)) := by
      rw [hp, hvs]
      exact (filter_other_append userID pre post v hv).symm
    have hnd : (voteUsers (Post.Vote p userID vote).Votes).Nodup := by
      rw [hp]
      simp only [voteUsers_append]
      exact hnd0.sublist (List.Sublist.append_left (List.sublist_cons_self _ _) _)
    have hsc : (Post.Vote p userID vote).Score
        = wrapInt (voteSum (Post.Vote p userID vote).Votes) := by
      rw [hp]
      simp only [voteSum_append, hscore, hvs, voteSum_cons]
      congr 1
      ring
    refine ⟨hnd, fun _ _ => hsc, ?_, ?_, hother _ hfil, hfil⟩
    · intro h1 h2
      exact ⟨by rw [hsc, wrapInt_of_range _ h1 h2], hnd⟩
    · rw [hp, if_pos h0]
      simp only []
      rw [voteOf_append_of_not_mem hpre]
      exact voteOf_eq_none hpost
  · have hfil : (Post.Vote p userID vote).Votes.filter (fun w => decide (w.User ≠ userID))
        = p.Votes.filter (fun w => decide (w.User ≠ userID)) := by
      rw [hp, hvs]
      simp only []
      rw [filter_other_append userID pre post _ rfl, filter_other_append userID pre post v hv]
    have hnd : (voteUsers (Post.Vote p userID vote).Votes).Nodup := by
      rw [hp]
      simp only [voteUsers_append, voteUsers_cons]
      rw [hvs, voteUsers_append, voteUsers_cons, hv] at hnodup
      exact hnodup
    have hsc : (Post.Vote p userID vote).Score
        = wrapInt (voteSum (Post.Vote p userID vote).Votes) := by
      rw [hp]
      simp only [voteSum_append, hscore, hvs, voteSum_cons, wrapInt_idem_add]
      congr 1
      ring
    refine ⟨hnd, fun _ _ => hsc, ?_, ?_, hother _ hfil, hfil⟩
    · intro h1 h2
      exact ⟨by rw [hsc, wrapInt_of_range _ h1 h2], hnd⟩
    · rw [hp, if_neg h0]
      simp only []
      rw [voteOf_append_of_not_mem hpre]
      simp [voteOf]

theorem C12_vote_preserves_invariant_witness :
    PostInv ⟨1, [⟨"alice", 1⟩], 0⟩
      ∧ voteOf (Post.Vote ⟨1, [⟨"alice", 1⟩], 0⟩ "bob" (-1)).Votes "bob" = some (-1) :=
  ⟨⟨by decide, by decide⟩,
    (C12_vote_preserves_invariant ⟨1, [⟨"alice", 1⟩], 0⟩ "bob" (-1)
      ⟨by decide, by decide⟩).2.2.2.1.trans (by decide)⟩

/-- C12 as stated fails: a post whose only vote has the value 2^63 - 1
satisfies the invariant; after a further vote of 1 by another user the vote
values sum to 2^63 and `Score` is -2^63. -/
theorem C12_counterexample :
    PostInv ⟨9223372036854775807, [⟨"a", 9223372036854775807⟩], 0⟩
      ∧ voteSum (Post.Vote ⟨9223372036854775807, [⟨"a", 9223372036854775807⟩], 0⟩
          "b" 1).Votes = 9223372036854775808
      ∧ (Post.Vote ⟨9223372036854775807, [⟨"a", 9223372036854775807⟩], 0⟩ "b" 1).Score
          = -9223372036854775808
      ∧ ¬ PostInv (Post.Vote ⟨9223372036854775807, [⟨"a", 9223372036854775807⟩], 0⟩ "b" 1) := by
  refine ⟨⟨by decide, by decide⟩, by decide, by decide, ?_⟩
  intro h
  have h1 := h.1
  revert h1
  decide

/-! ## Lemmas on `Post.CalculateUpvotePercentage` -/

theorem foldl_tallyVote (votes : List Vote) :
    ∀ acc : Nat × Nat, votes.foldl tallyVote acc
      = (acc.1 + votes.countP (fun v => decide (v.Vote = 1)),
         acc.2 + votes.countP (fun v => decide (v.Vote = -1))) := by
  induction votes with
  | nil => intro acc; simp
  | cons v vs ih =>
    intro acc
    rw [List.foldl_cons, ih]
    by_cases h1 : v.Vote = 1
    · have h2 : ¬ v.Vote = -1 := by omega
      simp only [tallyVote, h1, if_true, List.countP_cons, decide_True, h2, decide_False,
        Bool.false_eq_true, if_false]
      refine Prod.ext ?_ ?_
      · simp
        omega
      · simp
    · by_cases h2 : v.Vote = -1
      · simp only [tallyVote, h1, if_false, h2, if_true, List.countP_cons, decide_True,
          decide_False, Bool.false_eq_true]
        refine Prod.ext ?_ ?_
        · simp
        · simp
          omega
      · simp only [tallyVote, h1, if_false, h2, List.countP_cons, decide_False,
          Bool.false_eq_true]
        refine Prod.ext ?_ ?_ <;> simp

theorem countVotes_eq (votes : List Vote) :
    countVotes votes
      = (votes.countP (fun v => decide (v.Vote = 1)),
         votes.countP (fun v => decide (v.Vote = -1))) := by
  rw [countVotes, foldl_tallyVote]
  simp

theorem count_unit_votes (votes : List Vote)
    (h : ∀ v ∈ votes, v.Vote = 1 ∨ v.Vote = -1) :
    votes.countP (fun v => decide (v.Vote = 1))
      + votes.countP (fun v => decide (v.Vote = -1)) = votes.length := by
  induction votes with
  | nil => rfl
  | cons v vs ih =>
    have ih' := ih (fun w hw => h w (List.mem_cons_of_mem _ hw))
    rcases h v (List.mem_cons_self _ _) with h1 | h1
    · simp only [List.countP_cons, h1, List.length_cons]
      simp only [decide_True, if_true]
      have h2 : decide ((1 : Int) = -1) = false := by decide
      simp only [h2, Bool.false_eq_true, if_false]
      omega
    · simp only [List.countP_cons, h1, List.length_cons]
      simp only [decide_True, if_true]
      have h2 : decide ((-1 : Int) = 1) = false := by decide
      simp only [h2, Bool.false_eq_true, if_false]
      omega

theorem unit_votes_vote (p : Post) (userID : String) (vote : Int)
    (hv : handlerVote vote) (h : ∀ v ∈ p.Votes, v.Vote = 1 ∨ v.Vote = -1) :
    ∀ v ∈ (Post.Vote p userID vote).Votes, v.Vote = 1 ∨ v.Vote = -1 := by
  have hunit : vote ≠ 0 → vote = 1 ∨ vote = -1 := by
    intro h0
    rcases hv with h1 | h1 | h1
    · exact Or.inl h1
    · exact Or.inr h1
    · exact absurd h1 h0
  rcases vote_cases p userID vote with
    ⟨hu, h0, hp⟩ | ⟨hu, h0, hp⟩ | ⟨pre, w, post, hvs, hw, hpre, h0, hp⟩
      | ⟨pre, w, post, hvs, hw, hpre, h0, hp⟩
  · rw [hp]
    exact h
  · rw [hp]
    intro v hmem
    rcases List.mem_append.mp hmem with hm | hm
    · exact h v hm
    · rw [List.mem_singleton] at hm
      subst hm
      exact hunit h0
  · rw [hp]
    intro v hmem
    apply h v
    rw [hvs]
    rcases List.mem_append.mp hmem with hm | hm
    · exact List.mem_append_left _ hm
    · exact List.mem_append_right _ (List.mem_cons_of_mem _ hm)
  · rw [hp]
    intro v hmem
    rcases List.mem_append.mp hmem with hm | hm
    · apply h v
      rw [hvs]
      exact List.mem_append_left _ hm
    · rcases List.mem_cons.mp hm with hm | hm
      · subst hm
        exact hunit h0
      · apply h v
        rw [hvs]
        exact List.mem_append_right _ (List.mem_cons_of_mem _ hm)

theorem unit_votes_applyVotes (calls : List (String × Int))
    (hc : ∀ c ∈ calls, handlerVote c.2) :
    ∀ p : Post, (∀ v ∈ p.Votes, v.Vote = 1 ∨ v.Vote = -1) →
      ∀ v ∈ (applyVotes p calls).Votes, v.Vote = 1 ∨ v.Vote = -1 := by
  induction calls with
  | nil => intro p h; exact h
  | cons c cs ih =>
    intro p h
    have hc' : ∀ d ∈ cs, handlerVote d.2 := fun d hd => hc d (List.mem_cons_of_mem _ hd)
    exact ih hc' _ (unit_votes_vote p c.1 c.2 (hc c (List.mem_cons_self _ _)) h)

theorem unit_votes_newPost (userID : String) (pct : Int) :
    ∀ v ∈ (newPost userID pct).Votes, v.Vote = 1 ∨ v.Vote = -1 :=
  unit_votes_vote _ userID 1 (Or.inl rfl) (by simp)

theorem calculate_of_unit_votes (p : Post)
    (h : ∀ v ∈ p.Votes, v.Vote = 1 ∨ v.Vote = -1) :
    (p.Votes = [] → Post.CalculateUpvotePercentage p = none)
      ∧ (p.Votes ≠ [] →
          Post.CalculateUpvotePercentage p
            = some { p with
                UpvotePercentage :=
                  ((p.Votes.countP (fun v => decide (v.Vote = 1)) * 100
                    / (p.Votes.countP (fun v => decide (v.Vote = 1))
                        + p.Votes.countP (fun v => decide (v.Vote = -1))) : Nat) : Int) }
          ∧ p.Votes.countP (fun v => decide (v.Vote = 1)) * 100
              / (p.Votes.countP (fun v => decide (v.Vote = 1))
                  + p.Votes.countP (fun v => decide (v.Vote = -1))) ≤ 100) := by
  have hlen := count_unit_votes p.Votes h
  constructor
  · intro he
    simp [Post.CalculateUpvotePercentage, countVotes_eq, he]
  · intro hne
    have hpos : 0 < p.Votes.length := List.length_pos.mpr hne
    constructor
    · have hz : ¬ (p.Votes.countP (fun v => decide (v.Vote = 1))
          + p.Votes.countP (fun v => decide (v.Vote = -1)) = 0) := by omega
      simp only [Post.CalculateUpvotePercentage, countVotes_eq, hz, if_false]
    · apply Nat.div_le_of_le_mul
      rw [hlen]
      have : p.Votes.countP (fun v => decide (v.Vote = 1)) ≤ p.Votes.length := by omega
      calc p.Votes.countP (fun v => decide (v.Vote = 1)) * 100
          ≤ p.Votes.length * 100 := Nat.mul_le_mul_right _ this

/-- C13: what `CalculateUpvotePercentage` does on the posts reachable from a
newly added post by calls of `Post.Vote` with the values 1, -1 and 0. Every
entry of such a post has the value 1 or -1. When the vote slice is not
empty the method sets `UpvotePercentage` to the integer quotient of
100 * upvotes by upvotes + downvotes, a value between 0 and 100; when it is
empty, as after the author of a new post has removed the initial vote, the
divisor is zero and the method panics. -/
theorem C13_upvote_percentage (userID : String) (pct : Int)
    (calls : List (String × Int)) (hc : ∀ c ∈ calls, handlerVote c.2) :
    (∀ v ∈ (applyVotes (newPost userID pct) calls).Votes, v.Vote = 1 ∨ v.Vote = -1)
      ∧ ((applyVotes (newPost userID pct) calls).Votes = [] →
          Post.CalculateUpvotePercentage (applyVotes (newPost userID pct) calls) = none)
      ∧ ((applyVotes (newPost userID pct) calls).Votes ≠ [] →
          ∃ q, Post.CalculateUpvotePercentage (applyVotes (newPost userID pct) calls)
              = some q
            ∧ q.UpvotePercentage
              = (((applyVotes (newPost userID pct) calls).Votes.countP
                    (fun v => decide (v.Vote = 1)) * 100
                  / ((applyVotes (newPost userID pct) calls).Votes.countP
                        (fun v => decide (v.Vote = 1))
                      + (applyVotes (newPost userID pct) calls).Votes.countP
                        (fun v => decide (v.Vote = -1))) : Nat) : Int)
            ∧ 0 ≤ q.UpvotePercentage ∧ q.UpvotePercentage ≤ 100)
      ∧ (applyVotes (newPost "alice" 0) [("alice", 0)]).Votes = []
      ∧ voteHandler (newPost "alice" 0) "alice" 0 = none := by
  have hu := unit_votes_applyVotes calls hc (newPost userID pct)
    (unit_votes_newPost userID pct)
  obtain ⟨h1, h2⟩ := calculate_of_unit_votes _ hu
  refine ⟨hu, h1, ?_, by decide, by decide⟩
  intro hne
  obtain ⟨h3, h4⟩ := h2 hne
  refine ⟨_, h3, rfl, ?_, ?_⟩
  · exact Int.natCast_nonneg _
  · simp only []
    exact_mod_cast h4

theorem C13_upvote_percentage_witness :
    handlerVote 0
      ∧ Post.CalculateUpvotePercentage (applyVotes (newPost "alice" 0) [("alice", 0)])
          = none :=
  ⟨Or.inr (Or.inr rfl),
    (C13_upvote_percentage "alice" 0 [("alice", 0)]
      (by
        intro c hc
        rw [List.mem_singleton] at hc
        subst hc
        exact Or.inr (Or.inr rfl))).2.1 (by decide)⟩

end RedditClone
